import Mathlib

/-!
Verification development for the eval-run orchestrator `evals/furnace.py`.

The Python program schedules, launches, monitors and tears down `eval_count`
multi-container "instances" against a Docker engine, subject to a parallelism
cap `parallel_evals`, with per-instance log capture and an escalating
Ctrl+C cancellation protocol.

We shallowly embed the pieces of the program the claims are about:

* a Docker-engine state model for `ensure_network` (furnace.py lines 59-75)
  and `ensure_container` (lines 78-138);
* a filesystem model for the log-rotation logic of `start_instance`
  (lines 227-236);
* a scheduler state machine for `run_config`'s admission phase and main loop
  (lines 198-274), the signal handler `sigint_handler` (lines 202-220) and
  `cleanup_instance` (lines 151-181).

Machine-level aspects that the claims do not observe are elided and noted at
the definition that elides them (e.g. the derivation of `docker run` keyword
arguments inside `ensure_container`, stdout/stderr printing, and the
log-streaming daemon threads, which never touch orchestration state).
-/

namespace Furnace

/-! ## Docker engine state model

The engine holds named networks and named containers.  Docker object
identities are modelled by a fresh-id counter `nextId`: each `create` returns
a record carrying a fresh id, so "the same underlying network/container" is
id-equality.  `client.networks.get` / `client.containers.get` are modelled by
name lookup on this state; a lookup miss is Python's `NotFound`.
-/

/-- Container configuration consumed by `ensure_container` (the `cfg` dict):
image, optional hostname, environment mapping, raw volume strings, raw port
strings, optional command vector.  The derivation of the `docker run` keyword
arguments from these fields (lines 95-126 of furnace.py: absolute-path
resolution of volume host paths, port-string parsing, the echoed bash
command) is pure local computation that none of the claims observe, so the
configuration is stored as-is on the created container record. -/
structure ContainerCfg where
  image : String
  hostname : Option String := none
  environment : List (String × String) := []
  volumes : List String := []
  ports : List String := []
  command : List String := []
deriving DecidableEq, Repr

/-- A live network in the engine: its name and its engine-side identity. -/
structure NetRec where
  name : String
  id : Nat
deriving DecidableEq, Repr

/-- A live container in the engine: name, engine-side identity, and the
configuration it was created from.  Containers created by
`client.containers.run(..., detach=True)` start out running. -/
structure CtrRec where
  name : String
  id : Nat
  cfg : ContainerCfg
deriving DecidableEq, Repr

/-- The Docker engine state: live networks, live containers, and the
fresh-identity counter. -/
structure Docker where
  nets : List NetRec
  ctrs : List CtrRec
  nextId : Nat
deriving DecidableEq, Repr

/-- `ensure_network` (furnace.py lines 59-75), success path: look the network
up by name and return it if it exists, otherwise create a bridge network with
that name.  The `APIError` branches of the Python function call
`sys.exit(1)`; process-exiting provisioning failures are modelled in the
scheduler section (`startInstanceE`). -/
def ensure_network (d : Docker) (name : String) : NetRec × Docker :=
  match d.nets.find? (fun n => n.name = name) with
  | some net => (net, d)
  | none =>
      let net : NetRec := ⟨name, d.nextId⟩
      (net, { d with nets := d.nets ++ [net], nextId := d.nextId + 1 })

/-- `ensure_container` (furnace.py lines 78-138), success path: destructive
replacement.  Any existing container with the same name is force-removed
(`NotFound` is passed over), then a fresh container is created from `cfg` and
started detached.  The `APIError`/`DockerException` branches call
`sys.exit(1)` and are modelled in the scheduler section. -/
def ensure_container (d : Docker) (name : String) (cfg : ContainerCfg) :
    CtrRec × Docker :=
  let d1 : Docker := { d with ctrs := d.ctrs.filter (fun c => c.name ≠ name) }
  let c : CtrRec := ⟨name, d1.nextId, cfg⟩
  (c, { d1 with ctrs := d1.ctrs ++ [c], nextId := d1.nextId + 1 })

/-- The observable view of a live container that survives destructive
replacement: its name and launch configuration (the engine-side identity is
refreshed on every replacement). -/
def ctrView (c : CtrRec) : String × ContainerCfg := (c.name, c.cfg)

/-! ## Filesystem model for log rotation

`start_instance` (furnace.py lines 227-236) rotates a pre-existing log file
before creating a fresh one:

    logfile = f"{logdir}/{experiment}_eval_{i}.log"
    if os.path.exists(logfile):
        mtime = os.path.getmtime(logfile)
        ts = datetime.fromtimestamp(mtime).strftime("%Y%m%d_%H%M%S")
        archive = f"{logdir}/{experiment}_eval_{i}_{ts}.log"
        os.rename(logfile, archive)
    open(logfile, "w").close()

Files are (path, content-lines, mtime-in-seconds) records; `os.rename` has
POSIX semantics (the destination, if it exists, is silently replaced) and
preserves the modification time.  Modification times are whole seconds, the
resolution `strftime("%Y%m%d_%H%M%S")` observes; `datetime.fromtimestamp`
formats in the host's local timezone, which we fix to UTC — the timezone
shift is a constant the claims do not observe. -/

/-- One file on disk: path, content (a list of lines) and last-modified time
in whole seconds since the epoch. -/
structure FileRec where
  path : String
  content : List String
  mtime : Nat
deriving DecidableEq, Repr

/-- The filesystem: a list of files (paths are unique in any state the
program produces). -/
structure FS where
  files : List FileRec
deriving DecidableEq, Repr

/-- `os.path.exists` / opening a path for reading: first file at `p`. -/
def FS.lookup (fs : FS) (p : String) : Option FileRec :=
  fs.files.find? (fun f => f.path = p)

/-- `os.rename src dst` with POSIX semantics: the file at `src` now lives at
`dst`, replacing any previous occupant of `dst`; content and mtime move with
the file.  (If `src` does not exist the call is never reached by the
program, which guards it with `os.path.exists`.) -/
def FS.rename (fs : FS) (src dst : String) : FS :=
  match fs.lookup src with
  | none => fs
  | some f =>
      ⟨fs.files.filter (fun g => ¬(g.path = src ∨ g.path = dst)) ++
        [⟨dst, f.content, f.mtime⟩]⟩

/-- `open(p, "w").close()` at time `now`: truncate-create an empty file. -/
def FS.createEmpty (fs : FS) (p : String) (now : Nat) : FS :=
  ⟨fs.files.filter (fun g => g.path ≠ p) ++ [⟨p, [], now⟩]⟩

/-- One `f.write(...)` of `stream_logs` (furnace.py lines 141-148): append a
line to the file at `p` (creating it if absent) and touch its mtime. -/
def FS.appendLine (fs : FS) (p : String) (line : String) (now : Nat) : FS :=
  match fs.lookup p with
  | none => ⟨fs.files ++ [⟨p, [line], now⟩]⟩
  | some f =>
      ⟨fs.files.filter (fun g => g.path ≠ p) ++
        [⟨p, f.content ++ [line], now⟩]⟩

/-- Civil date (year, month, day) of a count of days since 1970-01-01,
following the standard days-from-civil inversion (valid for all days ≥ 0,
i.e. dates from the epoch on). -/
def civilFromDays (z : Nat) : Nat × Nat × Nat :=
  let z' := z + 719468
  let era := z' / 146097
  let doe := z' % 146097
  let yoe := (doe - doe / 1460 + doe / 36524 - doe / 146096) / 365
  let y := yoe + era * 400
  let doy := doe - (365 * yoe + yoe / 4 - yoe / 100)
  let mp := (5 * doy + 2) / 153
  let d := doy - (153 * mp + 2) / 5 + 1
  let m := if mp < 10 then mp + 3 else mp - 9
  if m ≤ 2 then (y + 1, m, d) else (y, m, d)

/-- Two-digit zero padding, as `strftime` produces for `%m %d %H %M %S`. -/
def pad2 (n : Nat) : String :=
  if n < 10 then "0" ++ toString n else toString n

/-- `datetime.fromtimestamp(t).strftime("%Y%m%d_%H%M%S")` for a whole-second
timestamp `t`, in the fixed (UTC) timezone of this model. -/
def formatTS (t : Nat) : String :=
  let days := t / 86400
  let secs := t % 86400
  let ymd := civilFromDays days
  toString ymd.1 ++ pad2 ymd.2.1 ++ pad2 ymd.2.2 ++ "_" ++
    pad2 (secs / 3600) ++ pad2 (secs % 3600 / 60) ++ pad2 (secs % 60)

/-- The canonical per-instance log path
`f"{logdir}/{experiment}_eval_{i}.log"` with `logdir = ".log"`. -/
def logPath (experiment : String) (i : Nat) : String :=
  ".log/" ++ experiment ++ "_eval_" ++ toString i ++ ".log"

/-- The archive path `f"{logdir}/{experiment}_eval_{i}_{ts}.log"` where `ts`
formats the rotated-out file's mtime. -/
def archivePath (experiment : String) (i : Nat) (mtime : Nat) : String :=
  ".log/" ++ experiment ++ "_eval_" ++ toString i ++ "_" ++ formatTS mtime ++
    ".log"

/-- The log-rotation block of `start_instance` (furnace.py lines 227-236),
run at wall-clock second `now`: if a file exists at the canonical path,
rename it to the archive path derived from its mtime, then truncate-create
an empty file at the canonical path.  (The `os.makedirs(logdir)` call is
represented by paths simply being available.) -/
def logSetup (experiment : String) (i : Nat) (now : Nat) (fs : FS) : FS :=
  let logfile := logPath experiment i
  match fs.lookup logfile with
  | some f =>
      (fs.rename logfile (archivePath experiment i f.mtime)).createEmpty
        logfile now
  | none => fs.createEmpty logfile now

/-! ## Scheduler state machine

This models `run_config` (furnace.py lines 184-293): the pending queue
`pending = list(range(1, total + 1))`, the active dict `active`, the
interrupt counter shared with `sigint_handler`, the admission phase, and the
main polling loop.  Per-instance Docker resources are tracked structurally —
the names `{experiment}_eval_net_{i}`, `{experiment}_eval_{i}` and
`{experiment}_eval_{i}_{svc}_{j}` are injective in `(i, svc, j)`, so a
resource is identified by its index and role rather than by the rendered
string.  Wall-clock time advances by one second per loop tick
(`time.sleep(1)`); `datetime.now` is the current tick count.

The signal handler runs concurrently with the loop in Python (between
bytecode instructions); the model makes loop ticks atomic and lets signals
interleave between them, which covers every observation point the claims
mention (after the admission phase and after each tick).  The log-streaming
daemon threads never read or write this state and are elided. -/

/-- One entry of the `tests` list: the service name and its replica count
(`svc.get("count", 1)` — the default is applied at configuration load). -/
structure Service where
  name : String
  count : Nat
deriving DecidableEq, Repr

/-- A per-instance Docker resource, identified structurally: the service
container `{experiment}_eval_{i}_{svc}_{j}`, the driver container
`{experiment}_eval_{i}`, or the instance network
`{experiment}_eval_net_{i}`. -/
inductive Resource where
  | svcCtr (i : Nat) (svc : String) (j : Nat)
  | driverCtr (i : Nat)
  | instNet (i : Nat)
deriving DecidableEq, Repr

/-- The instance index a resource belongs to. -/
def Resource.idx : Resource → Nat
  | svcCtr i _ _ => i
  | driverCtr i => i
  | instNet i => i

/-- The orchestration state owned by `run_config`: the pending queue, the
active dict (insertion-ordered, mapping instance index to its recorded start
time), the interrupt counter, the current wall-clock tick, the live
per-instance Docker resources, and a ghost trace `startedLog` of indices in
the order `start_instance` admitted them (the trace records the observable
`"Launched eval #i"` prints and has no effect on behaviour). -/
structure SchedState where
  pending : List Nat
  active : List (Nat × Nat)
  ic : Nat
  now : Nat
  resources : List Resource
  startedLog : List Nat
deriving DecidableEq, Repr

/-- Outcome of `info["ctr"].reload()` followed by the status check for one
active instance: the reload raised `APIError`, or the driver container is
still `"running"`, or its status is no longer `"running"`. -/
inductive Poll where
  | err
  | running
  | stopped
deriving DecidableEq, Repr

/-- Observable actions of a loop tick or a signal delivery:
`finalize i dur` is the `"Eval #i finished in {duration}"` print plus the
`cleanup_instance` call; `removeErr i` is the reload-failure path (error
print, removal scheduled, no cleanup); `launch i` is a `start_instance`
call; `stopRemove i` is the handler's inline `ctr.stop(); ctr.remove()` on
instance `i`'s driver. -/
inductive Action where
  | finalize (i : Nat) (dur : Nat)
  | removeErr (i : Nat)
  | launch (i : Nat)
  | stopRemove (i : Nat)
deriving DecidableEq, Repr

/-- Effect of `ensure_network` on the live-resource set: get-or-create (the
network is reused if present). -/
def addNet (n : Resource) (res : List Resource) : List Resource :=
  if n ∈ res then res else res ++ [n]

/-- Effect of `ensure_container` on the live-resource set: destructive
replacement (any same-named container is removed first, then the fresh one
is created). -/
def addCtr (c : Resource) (res : List Resource) : List Resource :=
  res.filter (fun r => r ≠ c) ++ [c]

/-- The service containers provisioned for instance `i`: for each entry of
`tests`, replicas `j` in `1..count` (furnace.py lines 237-241). -/
def svcResources (services : List Service) (i : Nat) : List Resource :=
  services.flatMap (fun svc =>
    (List.range' 1 svc.count).map (fun j => Resource.svcCtr i svc.name j))

/-- All resources owned by instance `i` once provisioned: its network, its
service containers, its driver container. -/
def instanceResources (services : List Service) (i : Nat) : List Resource :=
  Resource.instNet i :: (svcResources services i ++ [Resource.driverCtr i])

/-- `start_instance(i)` (furnace.py lines 224-250), provisioning succeeding:
ensure the instance network, provision every service replica and then the
driver container (each by destructive replacement), and record the instance
in `active` with its start time.  The log-file rotation is modelled
separately (`logSetup`); the best-effort `coord_net.connect` and the
log-follow threads do not touch this state. -/
def startInstance (services : List Service) (i : Nat) (s : SchedState) :
    SchedState :=
  let r0 := addNet (Resource.instNet i) s.resources
  let r1 := (svcResources services i).foldl (fun r c => addCtr c r) r0
  let r2 := addCtr (Resource.driverCtr i) r1
  { s with resources := r2,
           active := s.active ++ [(i, s.now)],
           startedLog := s.startedLog ++ [i] }

/-- The resources `cleanup_instance(client, experiment, i, services)`
(furnace.py lines 151-181) removes: every service replica container, the
driver container, the per-instance network (each `NotFound` is passed
over). -/
def cleanupTargets (services : List Service) (i : Nat) : List Resource :=
  svcResources services i ++ [Resource.driverCtr i, Resource.instNet i]

/-- `cleanup_instance` acting on the live-resource set. -/
def cleanupInstance (services : List Service) (i : Nat)
    (res : List Resource) : List Resource :=
  res.filter (fun r => r ∉ cleanupTargets services i)

/-- First phase of a loop tick (furnace.py lines 257-269): walk the snapshot
of `active.items()`, reload each driver's status; a reload failure schedules
the index for removal and continues; a non-`"running"` status prints the
duration, runs `cleanup_instance` and schedules the index for removal.
Returns the `to_remove` list, the surviving resources, and the actions
performed. -/
def pollPhase (services : List Service) (poll : Nat → Poll) (now : Nat) :
    List (Nat × Nat) → List Resource →
      List Nat × List Resource × List Action
  | [], res => ([], res, [])
  | (i, st) :: rest, res =>
      match poll i with
      | Poll.err =>
          let r := pollPhase services poll now rest res
          (i :: r.1, r.2.1, Action.removeErr i :: r.2.2)
      | Poll.running => pollPhase services poll now rest res
      | Poll.stopped =>
          let res1 := cleanupInstance services i res
          let r := pollPhase services poll now rest res1
          (i :: r.1, r.2.1, Action.finalize i (now - st) :: r.2.2)

/-- `del active[i]` for every entry with key `i`. -/
def removeKey (i : Nat) (a : List (Nat × Nat)) : List (Nat × Nat) :=
  a.filter (fun p => p.1 ≠ i)

/-- Second phase of a loop tick (furnace.py lines 270-273): for each index
in `to_remove`, delete it from `active` and, if the pending queue is
non-empty and the interrupt level is below 2, pop and start the next pending
index. -/
def refill (services : List Service) :
    List Nat → SchedState → SchedState × List Action
  | [], s => (s, [])
  | i :: tr, s =>
      let s1 := { s with active := removeKey i s.active }
      match s1.pending with
      | [] => refill services tr s1
      | j :: rest =>
          if s1.ic < 2 then
            let s2 := startInstance services j { s1 with pending := rest }
            let r := refill services tr s2
            (r.1, Action.launch j :: r.2)
          else refill services tr s1

/-- One full iteration of the main loop `while active:` (furnace.py lines
256-274): poll phase, then removal-and-replenishment, then `time.sleep(1)`
(one tick of wall-clock time). -/
def loopTick (services : List Service) (poll : Nat → Poll)
    (s : SchedState) : SchedState × List Action :=
  let r := pollPhase services poll s.now s.active s.resources
  let r2 := refill services r.1 { s with resources := r.2.1 }
  ({ r2.1 with now := r2.1.now + 1 }, r.2.2 ++ r2.2)

/-- `sigint_handler` (furnace.py lines 202-220).  First signal: clear the
pending queue.  Second signal: for every active instance, stop and remove
its driver container inline, then clear the active dict.  Third and later
signals: `sys.exit(1)`, reported as the exit code in the third component.
The handler's own `stop`/`remove` failures are caught and printed
(lines 215-216); the model takes the success path. -/
def sigintHandler (s : SchedState) : SchedState × List Action × Option Nat :=
  let ic := s.ic + 1
  if ic = 1 then
    ({ s with ic := ic, pending := [] }, [], none)
  else if ic = 2 then
    let acts := s.active.map (fun p => Action.stopRemove p.1)
    let res := s.active.foldl
      (fun r p => r.filter (fun x => x ≠ Resource.driverCtr p.1)) s.resources
    ({ s with ic := ic, active := [], resources := res }, acts, none)
  else
    ({ s with ic := ic }, [], some 1)

/-- The admission phase `while pending and len(active) < parallel:
start_instance(pending.pop(0))` (furnace.py lines 253-254), with fuel (the
loop pops one pending index per iteration, so `|pending|` iterations
suffice). -/
def initAdmitAux (services : List Service) (P : Nat) :
    Nat → SchedState → SchedState
  | 0, s => s
  | fuel + 1, s =>
      match s.pending with
      | [] => s
      | i :: rest =>
          if s.active.length < P then
            initAdmitAux services P fuel
              (startInstance services i { s with pending := rest })
          else s

/-- The admission phase, fuelled by the initial queue length. -/
def initAdmit (services : List Service) (P : Nat) (s : SchedState) :
    SchedState :=
  initAdmitAux services P s.pending.length s

/-- The state of `run_config` just before the admission phase:
`pending = list(range(1, total + 1))`, empty active dict, interrupt level 0
(furnace.py lines 198-200). -/
def initState (N : Nat) : SchedState :=
  { pending := List.range' 1 N, active := [], ic := 0, now := 0,
    resources := [], startedLog := [] }

/-- A scheduler step: either one atomic iteration of the main loop (which
only runs while `active` is non-empty), or the delivery of an interrupt
signal.  A third signal exits the process (`sys.exit(1)`), so signal steps
exist only below interrupt level 2 — after exit there is no state to
observe. -/
inductive Step (services : List Service) (s : SchedState) :
    SchedState → Prop
  | tick (poll : Nat → Poll) (hact : s.active ≠ []) :
      Step services s (loopTick services poll s).1
  | signal (hic : s.ic < 2) : Step services s (sigintHandler s).1

/-- A loop-only step (no signal ever delivered). -/
inductive TickStep (services : List Service) (s : SchedState) :
    SchedState → Prop
  | tick (poll : Nat → Poll) (hact : s.active ≠ []) :
      TickStep services s (loopTick services poll s).1

/-- States reachable from `s` by loop iterations and signal deliveries. -/
def Reach (services : List Service) (s t : SchedState) : Prop :=
  Relation.ReflTransGen (Step services) s t

/-- States reachable from `s` by loop iterations alone (no cancellation
signal arrives). -/
def TickReach (services : List Service) (s t : SchedState) : Prop :=
  Relation.ReflTransGen (TickStep services) s t

/-! ## Provisioning with failure

`ensure_network` and `ensure_container` call `sys.exit(1)` on any
`APIError`/`DockerException` (furnace.py lines 70-75, 91-93, 133-138) — also
when called from `start_instance` for a per-instance network, service
container or driver container.  `startInstanceE` is `start_instance` with
that failure behaviour made explicit: the oracles say whether the network
creation, a service-container creation, or the driver-container creation for
instance `i` raises, and a raise surfaces as exit code `some 1` together
with the state at the moment of exit.  (A service-container failure is
modelled as occurring before the instance's service containers are created;
which partial prefix of them exists at exit is not observable by any
claim.) -/
def startInstanceE (netFail svcFail drvFail : Nat → Bool)
    (services : List Service) (i : Nat) (s : SchedState) :
    SchedState × Option Nat :=
  if netFail i then (s, some 1)
  else
    let r0 := addNet (Resource.instNet i) s.resources
    if svcFail i then ({ s with resources := r0 }, some 1)
    else
      let r1 := (svcResources services i).foldl (fun r c => addCtr c r) r0
      if drvFail i then ({ s with resources := r1 }, some 1)
      else
        ({ s with resources := addCtr (Resource.driverCtr i) r1,
                  active := s.active ++ [(i, s.now)],
                  startedLog := s.startedLog ++ [i] }, none)

/-- The admission phase with provisioning failures: a `sys.exit(1)` raised
inside `start_instance` is not caught anywhere in `run_config`, so it
terminates the whole process — no further pending index is admitted and the
loop is never reached. -/
def initAdmitEAux (netFail svcFail drvFail : Nat → Bool)
    (services : List Service) (P : Nat) :
    Nat → SchedState → SchedState × Option Nat
  | 0, s => (s, none)
  | fuel + 1, s =>
      match s.pending with
      | [] => (s, none)
      | i :: rest =>
          if s.active.length < P then
            match startInstanceE netFail svcFail drvFail services i
                { s with pending := rest } with
            | (s', none) =>
                initAdmitEAux netFail svcFail drvFail services P fuel s'
            | (s', some c) => (s', some c)
          else (s, none)

/-- The admission phase with provisioning failures, fuelled by the initial
queue length. -/
def initAdmitE (netFail svcFail drvFail : Nat → Bool)
    (services : List Service) (P : Nat) (s : SchedState) :
    SchedState × Option Nat :=
  initAdmitEAux netFail svcFail drvFail services P s.pending.length s

/-- A one-service configuration used by concrete witnesses and
counterexamples: one `db` service replica per instance. -/
def dbService : List Service := [⟨"db", 1⟩]

/-- A concrete mid-run state: instance 1 active (started at tick 0), nothing
pending, no signal yet, clock at tick 5, instance 1's resources live.  It is
the state a 1-instance run reaches after five ticks in which the driver kept
running. -/
def exampleActive : SchedState :=
  { pending := [], active := [(1, 0)], ic := 0, now := 5,
    resources := instanceResources dbService 1, startedLog := [1] }

/-- The same mid-run state after the first cancellation signal. -/
def exampleLevel1 : SchedState := { exampleActive with ic := 1 }

/-! ## Helper lemmas -/

theorem mem_foldl_filter {α β : Type} (g : β → α → Bool) (l : List β)
    (init : List α) (x : α) :
    x ∈ l.foldl (fun r b => r.filter (g b)) init ↔
      x ∈ init ∧ ∀ b ∈ l, g b x = true := by
  induction l generalizing init with
  | nil => simp
  | cons b tl ih =>
      simp only [List.foldl_cons, ih, List.mem_filter, List.mem_cons]
      constructor
      · rintro ⟨⟨hx, hb⟩, htl⟩
        refine ⟨hx, fun c hc => ?_⟩
        rcases hc with rfl | hc
        · exact hb
        · exact htl c hc
      · rintro ⟨hx, hall⟩
        exact ⟨⟨hx, hall b (Or.inl rfl)⟩, fun c hc => hall c (Or.inr hc)⟩

theorem mem_addCtr (c x : Resource) (res : List Resource) :
    x ∈ addCtr c res ↔ x ∈ res ∨ x = c := by
  simp only [addCtr, List.mem_append, List.mem_filter, List.mem_singleton,
    decide_eq_true_eq]
  constructor
  · rintro (⟨h, _⟩ | h) <;> [exact Or.inl h; exact Or.inr h]
  · rintro (h | rfl)
    · by_cases hx : x = c
      · exact Or.inr hx
      · exact Or.inl ⟨h, hx⟩
    · exact Or.inr rfl

theorem mem_addNet (n x : Resource) (res : List Resource) :
    x ∈ addNet n res ↔ x ∈ res ∨ x = n := by
  simp only [addNet]
  split
  · next h => constructor
              · exact Or.inl
              · rintro (hx | rfl) <;> assumption
  · simp [List.mem_append]

theorem mem_foldl_addCtr (l : List Resource) (init : List Resource)
    (x : Resource) :
    x ∈ l.foldl (fun r c => addCtr c r) init ↔ x ∈ init ∨ x ∈ l := by
  induction l generalizing init with
  | nil => simp
  | cons c tl ih =>
      simp only [List.foldl_cons, ih, mem_addCtr, List.mem_cons]
      tauto

theorem mem_startInstance_resources (services : List Service) (i : Nat)
    (s : SchedState) (x : Resource) :
    x ∈ (startInstance services i s).resources ↔
      x ∈ s.resources ∨ x ∈ instanceResources services i := by
  simp only [startInstance, instanceResources, mem_addCtr, mem_foldl_addCtr,
    mem_addNet, List.mem_cons, List.mem_append, List.mem_singleton]
  tauto

theorem idx_of_mem_svcResources {services : List Service} {i : Nat}
    {r : Resource} (h : r ∈ svcResources services i) : r.idx = i := by
  simp only [svcResources, List.mem_flatMap, List.mem_map] at h
  obtain ⟨svc, -, j, -, rfl⟩ := h
  rfl

theorem idx_of_mem_instanceResources {services : List Service} {i : Nat}
    {r : Resource} (h : r ∈ instanceResources services i) : r.idx = i := by
  simp only [instanceResources, List.mem_cons, List.mem_append,
    List.mem_singleton, List.not_mem_nil, or_false] at h
  rcases h with rfl | h | rfl
  · rfl
  · exact idx_of_mem_svcResources h
  · rfl

theorem idx_of_mem_cleanupTargets {services : List Service} {i : Nat}
    {r : Resource} (h : r ∈ cleanupTargets services i) : r.idx = i := by
  simp only [cleanupTargets, List.mem_append, List.mem_cons,
    List.mem_singleton, List.not_mem_nil, or_false] at h
  rcases h with h | rfl | rfl
  · exact idx_of_mem_svcResources h
  · rfl
  · rfl

theorem cleanupTargets_disjoint {services : List Service} {i j : Nat}
    {r : Resource} (hne : i ≠ j) (hi : r ∈ cleanupTargets services i)
    (hj : r ∈ instanceResources services j) : False :=
  hne (idx_of_mem_cleanupTargets hi ▸ idx_of_mem_instanceResources hj ▸ rfl)

theorem cleanupTargets_ne {services : List Service} {i j : Nat}
    {r : Resource} (hne : i ≠ j) (hi : r ∈ cleanupTargets services i)
    (hj : r ∈ cleanupTargets services j) : False :=
  hne ((idx_of_mem_cleanupTargets hi).symm.trans
    (idx_of_mem_cleanupTargets hj))

theorem pollPhase_toRemove_sublist (services : List Service)
    (poll : Nat → Poll) (now : Nat) (l : List (Nat × Nat))
    (res : List Resource) :
    (pollPhase services poll now l res).1.Sublist (l.map Prod.fst) := by
  induction l generalizing res with
  | nil => simp [pollPhase]
  | cons p tl ih =>
      obtain ⟨i, st⟩ := p
      simp only [pollPhase, List.map_cons]
      cases poll i with
      | err => exact (ih res).cons₂ i
      | running => exact (ih res).cons i
      | stopped => exact (ih (cleanupInstance services i res)).cons₂ i

theorem pollPhase_res_subset {services : List Service} {poll : Nat → Poll}
    {now : Nat} {l : List (Nat × Nat)} {res : List Resource} {r : Resource}
    (h : r ∈ (pollPhase services poll now l res).2.1) : r ∈ res := by
  induction l generalizing res with
  | nil => simpa [pollPhase] using h
  | cons p tl ih =>
      obtain ⟨i, st⟩ := p
      simp only [pollPhase] at h
      cases hp : poll i <;> simp only [hp] at h
      · exact ih h
      · exact ih h
      · have := ih h
        simp only [cleanupInstance, List.mem_filter] at this
        exact this.1

theorem pollPhase_toRemove_mem {services : List Service} {poll : Nat → Poll}
    {now : Nat} {l : List (Nat × Nat)} {res : List Resource} {i st : Nat}
    (hmem : (i, st) ∈ l) (hp : poll i ≠ Poll.running) :
    i ∈ (pollPhase services poll now l res).1 := by
  induction l generalizing res with
  | nil => cases hmem
  | cons p tl ih =>
      obtain ⟨k, st'⟩ := p
      simp only [pollPhase]
      rcases List.mem_cons.mp hmem with heq | htl
      · obtain ⟨rfl, rfl⟩ := Prod.mk.injEq .. ▸ heq
        cases hpk : poll i with
        | err => exact List.mem_cons_self _ _
        | running => exact absurd hpk hp
        | stopped => exact List.mem_cons_self _ _
      · cases hpk : poll k with
        | err => exact List.mem_cons_of_mem _ (ih htl)
        | running => exact ih htl
        | stopped =>
            exact List.mem_cons_of_mem _
              (ih htl)

theorem pollPhase_finalize_mem {services : List Service} {poll : Nat → Poll}
    {now : Nat} {l : List (Nat × Nat)} {res : List Resource} {i st : Nat}
    (hmem : (i, st) ∈ l) (hp : poll i = Poll.stopped) :
    Action.finalize i (now - st) ∈ (pollPhase services poll now l res).2.2 := by
  induction l generalizing res with
  | nil => cases hmem
  | cons p tl ih =>
      obtain ⟨k, st'⟩ := p
      simp only [pollPhase]
      rcases List.mem_cons.mp hmem with heq | htl
      · obtain ⟨rfl, rfl⟩ := Prod.mk.injEq .. ▸ heq
        rw [hp]
        exact List.mem_cons_self _ _
      · cases hpk : poll k with
        | err => exact List.mem_cons_of_mem _ (ih htl)
        | running => exact ih htl
        | stopped =>
            exact List.mem_cons_of_mem _
              (ih htl)

theorem pollPhase_removeErr_mem {services : List Service} {poll : Nat → Poll}
    {now : Nat} {l : List (Nat × Nat)} {res : List Resource} {i st : Nat}
    (hmem : (i, st) ∈ l) (hp : poll i = Poll.err) :
    Action.removeErr i ∈ (pollPhase services poll now l res).2.2 := by
  induction l generalizing res with
  | nil => cases hmem
  | cons p tl ih =>
      obtain ⟨k, st'⟩ := p
      simp only [pollPhase]
      rcases List.mem_cons.mp hmem with heq | htl
      · obtain ⟨rfl, rfl⟩ := Prod.mk.injEq .. ▸ heq
        rw [hp]
        exact List.mem_cons_self _ _
      · cases hpk : poll k with
        | err => exact List.mem_cons_of_mem _ (ih htl)
        | running => exact ih htl
        | stopped =>
            exact List.mem_cons_of_mem _
              (ih htl)

theorem pollPhase_acts_shape {services : List Service} {poll : Nat → Poll}
    {now : Nat} {l : List (Nat × Nat)} {res : List Resource} {a : Action}
    (h : a ∈ (pollPhase services poll now l res).2.2) :
    (∃ i d, a = Action.finalize i d) ∨ ∃ i, a = Action.removeErr i := by
  induction l generalizing res with
  | nil => simp [pollPhase] at h
  | cons p tl ih =>
      obtain ⟨i, st⟩ := p
      simp only [pollPhase] at h
      cases hp : poll i <;> simp only [hp] at h
      · rcases List.mem_cons.mp h with rfl | h
        · exact Or.inr ⟨i, rfl⟩
        · exact ih h
      · exact ih h
      · rcases List.mem_cons.mp h with rfl | h
        · exact Or.inl ⟨i, now - st, rfl⟩
        · exact ih h

theorem pollPhase_finalize_inv {services : List Service} {poll : Nat → Poll}
    {now : Nat} {l : List (Nat × Nat)} {res : List Resource} {i d : Nat}
    (h : Action.finalize i d ∈ (pollPhase services poll now l res).2.2) :
    ∃ st, (i, st) ∈ l ∧ poll i = Poll.stopped ∧ d = now - st := by
  induction l generalizing res with
  | nil => simp [pollPhase] at h
  | cons p tl ih =>
      obtain ⟨k, st'⟩ := p
      simp only [pollPhase] at h
      cases hp : poll k <;> simp only [hp] at h
      · rcases List.mem_cons.mp h with heq | h
        · cases heq
        · obtain ⟨st, hst, hps, hd⟩ := ih h
          exact ⟨st, List.mem_cons_of_mem _ hst, hps, hd⟩
      · obtain ⟨st, hst, hps, hd⟩ := ih h
        exact ⟨st, List.mem_cons_of_mem _ hst, hps, hd⟩
      · rcases List.mem_cons.mp h with heq | h
        · obtain ⟨rfl, rfl⟩ := Action.finalize.injEq .. ▸ heq
          exact ⟨st', List.mem_cons_self _ _, hp, rfl⟩
        · obtain ⟨st, hst, hps, hd⟩ := ih h
          exact ⟨st, List.mem_cons_of_mem _ hst, hps, hd⟩

theorem pollPhase_cleanup {services : List Service} {poll : Nat → Poll}
    {now : Nat} {l : List (Nat × Nat)} {res : List Resource} {i st : Nat}
    (hmem : (i, st) ∈ l) (hp : poll i = Poll.stopped) :
    ∀ r ∈ cleanupTargets services i,
      r ∉ (pollPhase services poll now l res).2.1 := by
  induction l generalizing res with
  | nil => cases hmem
  | cons p tl ih =>
      obtain ⟨k, st'⟩ := p
      intro r hr hcon
      simp only [pollPhase] at hcon
      rcases List.mem_cons.mp hmem with heq | htl
      · obtain ⟨rfl, rfl⟩ := Prod.mk.injEq .. ▸ heq
        rw [hp] at hcon
        have hsub := pollPhase_res_subset hcon
        simp only [cleanupInstance, List.mem_filter, decide_eq_true_eq] at hsub
        exact hsub.2 hr
      · cases hpk : poll k <;> rw [hpk] at hcon
        · exact ih htl r hr hcon
        · exact ih htl r hr hcon
        · exact ih htl r hr hcon

theorem pollPhase_res_keep {services : List Service} {poll : Nat → Poll}
    {now : Nat} {l : List (Nat × Nat)} {res : List Resource} {r : Resource}
    (hr : r ∈ res)
    (hsafe : ∀ j st, (j, st) ∈ l → poll j = Poll.stopped →
      r ∉ cleanupTargets services j) :
    r ∈ (pollPhase services poll now l res).2.1 := by
  induction l generalizing res with
  | nil => simpa [pollPhase] using hr
  | cons p tl ih =>
      obtain ⟨k, st'⟩ := p
      simp only [pollPhase]
      cases hpk : poll k with
      | err =>
          exact ih hr fun j st hj => hsafe j st (List.mem_cons_of_mem _ hj)
      | running =>
          exact ih hr fun j st hj => hsafe j st (List.mem_cons_of_mem _ hj)
      | stopped =>
          have hr1 : r ∈ cleanupInstance services k res := by
            simp only [cleanupInstance, List.mem_filter, decide_eq_true_eq]
            exact ⟨hr, hsafe k st' (List.mem_cons_self _ _) hpk⟩
          exact ih hr1 fun j st hj => hsafe j st (List.mem_cons_of_mem _ hj)

theorem mem_removeKey (i : Nat) (a : List (Nat × Nat)) (p : Nat × Nat) :
    p ∈ removeKey i a ↔ p ∈ a ∧ p.1 ≠ i := by
  simp [removeKey]

theorem mem_keys_removeKey {i k : Nat} {a : List (Nat × Nat)} :
    k ∈ (removeKey i a).map Prod.fst ↔ k ∈ a.map Prod.fst ∧ k ≠ i := by
  simp only [List.mem_map, mem_removeKey]
  constructor
  · rintro ⟨p, ⟨hp, hne⟩, rfl⟩
    exact ⟨⟨p, hp, rfl⟩, hne⟩
  · rintro ⟨⟨p, hp, rfl⟩, hne⟩
    exact ⟨p, ⟨hp, hne⟩, rfl⟩

theorem removeKey_length_le (i : Nat) (a : List (Nat × Nat)) :
    (removeKey i a).length ≤ a.length :=
  (List.filter_sublist a).length_le

theorem removeKey_length_lt {i : Nat} {a : List (Nat × Nat)}
    (h : i ∈ a.map Prod.fst) : (removeKey i a).length < a.length := by
  induction a with
  | nil => cases h
  | cons p tl ih =>
      simp only [List.map_cons, List.mem_cons] at h
      by_cases hp : p.1 = i
      · have h1 : removeKey i (p :: tl) = removeKey i tl := by
          simp [removeKey, List.filter_cons, hp]
        rw [h1]
        exact Nat.lt_succ_of_le (removeKey_length_le i tl)
      · have h1 : removeKey i (p :: tl) = p :: removeKey i tl := by
          simp [removeKey, List.filter_cons, hp]
        rw [h1]
        rcases h with h | h
        · exact absurd h.symm hp
        · simpa using ih h

theorem removeKey_sublist (i : Nat) (a : List (Nat × Nat)) :
    (removeKey i a).Sublist a :=
  List.filter_sublist a

/-- Unfolding equation for `refill` on a non-empty `to_remove` list, with
the scrutinee rewritten to the underlying fields of `s`. -/
theorem refill_cons (services : List Service) (i : Nat) (tr : List Nat)
    (s : SchedState) :
    refill services (i :: tr) s =
      match s.pending with
      | [] => refill services tr { s with active := removeKey i s.active }
      | j :: rest =>
          if s.ic < 2 then
            ((refill services tr (startInstance services j
                { s with pending := rest,
                         active := removeKey i s.active })).1,
              Action.launch j ::
                (refill services tr (startInstance services j
                  { s with pending := rest,
                           active := removeKey i s.active })).2)
          else refill services tr { s with active := removeKey i s.active } :=
  rfl

theorem refill_cons_nil {services : List Service} {i : Nat} {tr : List Nat}
    {s : SchedState} (h : s.pending = []) :
    refill services (i :: tr) s =
      refill services tr { s with active := removeKey i s.active } := by
  rw [refill_cons, h]

theorem refill_cons_start {services : List Service} {i : Nat}
    {tr : List Nat} {s : SchedState} {j : Nat} {rest : List Nat}
    (h : s.pending = j :: rest) (hic : s.ic < 2) :
    refill services (i :: tr) s =
      ((refill services tr (startInstance services j
          { s with pending := rest, active := removeKey i s.active })).1,
        Action.launch j ::
          (refill services tr (startInstance services j
            { s with pending := rest, active := removeKey i s.active })).2) := by
  rw [refill_cons, h]
  exact if_pos hic

theorem refill_cons_block {services : List Service} {i : Nat}
    {tr : List Nat} {s : SchedState} {j : Nat} {rest : List Nat}
    (h : s.pending = j :: rest) (hic : ¬s.ic < 2) :
    refill services (i :: tr) s =
      refill services tr { s with active := removeKey i s.active } := by
  rw [refill_cons, h]
  exact if_neg hic

theorem refill_cons_start_fst {services : List Service} {i : Nat}
    {tr : List Nat} {s : SchedState} {j : Nat} {rest : List Nat}
    (h : s.pending = j :: rest) (hic : s.ic < 2) :
    (refill services (i :: tr) s).1 =
      (refill services tr (startInstance services j
        { s with pending := rest, active := removeKey i s.active })).1 := by
  rw [refill_cons_start h hic]

theorem refill_cons_start_snd {services : List Service} {i : Nat}
    {tr : List Nat} {s : SchedState} {j : Nat} {rest : List Nat}
    (h : s.pending = j :: rest) (hic : s.ic < 2) :
    (refill services (i :: tr) s).2 =
      Action.launch j ::
        (refill services tr (startInstance services j
          { s with pending := rest, active := removeKey i s.active })).2 := by
  rw [refill_cons_start h hic]

theorem refill_ic (services : List Service) (tr : List Nat)
    (s : SchedState) : (refill services tr s).1.ic = s.ic := by
  induction tr generalizing s with
  | nil => rfl
  | cons i tl ih =>
      cases hsp : s.pending with
      | nil =>
          rw [refill_cons_nil hsp]
          exact ih _
      | cons j rest =>
          by_cases hic : s.ic < 2
          · rw [refill_cons_start_fst hsp hic]
            exact ih _
          · rw [refill_cons_block hsp hic]
            exact ih _

theorem refill_now (services : List Service) (tr : List Nat)
    (s : SchedState) : (refill services tr s).1.now = s.now := by
  induction tr generalizing s with
  | nil => rfl
  | cons i tl ih =>
      cases hsp : s.pending with
      | nil =>
          rw [refill_cons_nil hsp]
          exact ih _
      | cons j rest =>
          by_cases hic : s.ic < 2
          · rw [refill_cons_start_fst hsp hic]
            exact ih _
          · rw [refill_cons_block hsp hic]
            exact ih _

theorem refill_trace (services : List Service) (tr : List Nat)
    (s : SchedState) :
    (refill services tr s).1.startedLog ++ (refill services tr s).1.pending =
      s.startedLog ++ s.pending := by
  induction tr generalizing s with
  | nil => rfl
  | cons i tl ih =>
      cases hsp : s.pending with
      | nil =>
          rw [refill_cons_nil hsp, ih _]
          simp [hsp]
      | cons j rest =>
          by_cases hic : s.ic < 2
          · rw [refill_cons_start_fst hsp hic, ih _]
            simp [startInstance]
          · rw [refill_cons_block hsp hic, ih _]
            simp [hsp]

theorem refill_pending_nil {services : List Service} {tr : List Nat}
    {s : SchedState} (h : s.pending = []) :
    refill services tr s =
      ({ s with active := tr.foldl (fun a i => removeKey i a) s.active },
        []) := by
  induction tr generalizing s with
  | nil => rfl
  | cons i tl ih =>
      rw [refill_cons_nil h]
      exact ih (s := { s with active := removeKey i s.active }) h

theorem refill_ic_ge2 {services : List Service} {tr : List Nat}
    {s : SchedState} (h : 2 ≤ s.ic) :
    refill services tr s =
      ({ s with active := tr.foldl (fun a i => removeKey i a) s.active },
        []) := by
  induction tr generalizing s with
  | nil => rfl
  | cons i tl ih =>
      cases hsp : s.pending with
      | nil =>
          rw [refill_cons_nil hsp,
            ih (s := { s with active := removeKey i s.active }) h]
          simp [hsp]
      | cons j rest =>
          rw [refill_cons_block hsp (Nat.not_lt.mpr h),
            ih (s := { s with active := removeKey i s.active }) h]
          simp [hsp]

theorem refill_acts {services : List Service} {tr : List Nat}
    {s : SchedState} {a : Action} (h : a ∈ (refill services tr s).2) :
    ∃ j ∈ s.pending, a = Action.launch j := by
  induction tr generalizing s with
  | nil => cases h
  | cons i tl ih =>
      cases hsp : s.pending with
      | nil =>
          rw [refill_cons_nil hsp] at h
          obtain ⟨j, hj, rfl⟩ := ih h
          simp [hsp] at hj
      | cons j rest =>
          by_cases hic : s.ic < 2
          · rw [refill_cons_start_snd hsp hic] at h
            rcases List.mem_cons.mp h with rfl | h
            · exact ⟨j, by simp [hsp], rfl⟩
            · obtain ⟨k, hk, rfl⟩ := ih h
              simp only [startInstance] at hk
              exact ⟨k, by simp [hsp, hk], rfl⟩
          · rw [refill_cons_block hsp hic] at h
            obtain ⟨k, hk, rfl⟩ := ih h
            exact ⟨k, by simpa [hsp] using hk, rfl⟩

theorem refill_length {services : List Service} {tr : List Nat}
    {s : SchedState} (hnd : tr.Nodup)
    (hmem : ∀ i ∈ tr, i ∈ s.active.map Prod.fst) :
    (refill services tr s).1.active.length ≤ s.active.length := by
  induction tr generalizing s with
  | nil => exact le_refl _
  | cons i tl ih =>
      have hi : i ∈ s.active.map Prod.fst := hmem i (List.mem_cons_self _ _)
      have hlt := removeKey_length_lt hi
      have hni := (List.nodup_cons.mp hnd).1
      have hnd2 := (List.nodup_cons.mp hnd).2
      cases hsp : s.pending with
      | nil =>
          rw [refill_cons_nil hsp]
          refine le_trans (ih hnd2 ?_) (le_of_lt hlt)
          intro x hx
          have hxs := hmem x (List.mem_cons_of_mem _ hx)
          exact mem_keys_removeKey.mpr ⟨hxs, fun hxi => hni (hxi ▸ hx)⟩
      | cons j rest =>
          by_cases hic : s.ic < 2
          · rw [refill_cons_start_fst hsp hic]
            have harg : ∀ x ∈ tl, x ∈ (startInstance services j
                { s with pending := rest,
                         active := removeKey i s.active }).active.map
                  Prod.fst := by
              intro x hx
              have hxs := hmem x (List.mem_cons_of_mem _ hx)
              have hxr : x ∈ (removeKey i s.active).map Prod.fst :=
                mem_keys_removeKey.mpr ⟨hxs, fun hxi => hni (hxi ▸ hx)⟩
              simp only [startInstance, List.map_append]
              exact List.mem_append_left _ hxr
            have step := ih hnd2 harg
            have hlen : (startInstance services j
                { s with pending := rest,
                         active := removeKey i s.active }).active.length =
                (removeKey i s.active).length + 1 := by
              simp [startInstance]
            rw [hlen] at step
            exact le_trans step (Nat.succ_le_of_lt hlt)
          · rw [refill_cons_block hsp hic]
            refine le_trans (ih hnd2 ?_) (le_of_lt hlt)
            intro x hx
            have hxs := hmem x (List.mem_cons_of_mem _ hx)
            exact mem_keys_removeKey.mpr ⟨hxs, fun hxi => hni (hxi ▸ hx)⟩

theorem refill_keys_subset {services : List Service} {tr : List Nat}
    {s : SchedState} {k : Nat}
    (h : k ∈ (refill services tr s).1.active.map Prod.fst) :
    (k ∈ s.active.map Prod.fst ∧ k ∉ tr) ∨ k ∈ s.pending := by
  induction tr generalizing s with
  | nil => exact Or.inl ⟨h, List.not_mem_nil k⟩
  | cons i tl ih =>
      cases hsp : s.pending with
      | nil =>
          rw [refill_cons_nil hsp] at h
          rcases ih h with ⟨hk, hnotl⟩ | hp
          · have hm := mem_keys_removeKey.mp hk
            exact Or.inl ⟨hm.1, by simp [hm.2, hnotl]⟩
          · simp [hsp] at hp
      | cons j rest =>
          by_cases hic : s.ic < 2
          · rw [refill_cons_start_fst hsp hic] at h
            rcases ih h with ⟨hk, hnotl⟩ | hp
            · simp only [startInstance, List.map_append] at hk
              rcases List.mem_append.mp hk with hk | hk
              · have hm := mem_keys_removeKey.mp hk
                exact Or.inl ⟨hm.1, by simp [hm.2, hnotl]⟩
              · simp at hk
                subst hk
                exact Or.inr (List.mem_cons_self _ _)
            · simp only [startInstance] at hp
              exact Or.inr (List.mem_cons_of_mem _ hp)
          · rw [refill_cons_block hsp hic] at h
            rcases ih h with ⟨hk, hnotl⟩ | hp
            · have hm := mem_keys_removeKey.mp hk
              exact Or.inl ⟨hm.1, by simp [hm.2, hnotl]⟩
            · simp only at hp
              rw [hsp] at hp
              exact Or.inr hp

theorem refill_res_keep {services : List Service} {tr : List Nat}
    {s : SchedState} {r : Resource} (h : r ∈ s.resources) :
    r ∈ (refill services tr s).1.resources := by
  induction tr generalizing s with
  | nil => exact h
  | cons i tl ih =>
      cases hsp : s.pending with
      | nil =>
          rw [refill_cons_nil hsp]
          exact ih h
      | cons j rest =>
          by_cases hic : s.ic < 2
          · rw [refill_cons_start_fst hsp hic]
            exact ih ((mem_startInstance_resources services j _ r).mpr
              (Or.inl h))
          · rw [refill_cons_block hsp hic]
            exact ih h

theorem refill_res_inv {services : List Service} {tr : List Nat}
    {s : SchedState} {r : Resource}
    (h : r ∈ (refill services tr s).1.resources) :
    r ∈ s.resources ∨ ∃ j ∈ s.pending, r ∈ instanceResources services j := by
  induction tr generalizing s with
  | nil => exact Or.inl h
  | cons i tl ih =>
      cases hsp : s.pending with
      | nil =>
          rw [refill_cons_nil hsp] at h
          rcases ih h with h | ⟨j, hj, hr⟩
          · exact Or.inl h
          · simp [hsp] at hj
      | cons j rest =>
          by_cases hic : s.ic < 2
          · rw [refill_cons_start_fst hsp hic] at h
            rcases ih h with h | ⟨k, hk, hr⟩
            · rcases (mem_startInstance_resources services j _ r).mp h
                  with h | h
              · exact Or.inl h
              · exact Or.inr ⟨j, List.mem_cons_self _ _, h⟩
            · simp only [startInstance] at hk
              exact Or.inr ⟨k, List.mem_cons_of_mem _ hk, hr⟩
          · rw [refill_cons_block hsp hic] at h
            rcases ih h with h | ⟨k, hk, hr⟩
            · exact Or.inl h
            · simp only at hk
              rw [hsp] at hk
              exact Or.inr ⟨k, hk, hr⟩

theorem refill_nodup {services : List Service} {tr : List Nat}
    {s : SchedState}
    (h : (s.pending ++ s.active.map Prod.fst).Nodup) :
    ((refill services tr s).1.pending ++
      (refill services tr s).1.active.map Prod.fst).Nodup := by
  induction tr generalizing s with
  | nil => exact h
  | cons i tl ih =>
      cases hsp : s.pending with
      | nil =>
          rw [refill_cons_nil hsp]
          refine ih ?_
          have hsub : (s.pending ++ (removeKey i s.active).map
              Prod.fst).Sublist (s.pending ++ s.active.map Prod.fst) :=
            (List.Sublist.refl _).append
              ((removeKey_sublist i s.active).map Prod.fst)
          exact hsub.nodup h
      | cons j rest =>
          by_cases hic : s.ic < 2
          · rw [refill_cons_start_fst hsp hic]
            refine ih ?_
            rw [hsp] at h
            have h1 : (j :: (rest ++ s.active.map Prod.fst)).Nodup := by
              simpa using h
            have hsub : (j :: (rest ++ (removeKey i s.active).map
                Prod.fst)).Sublist
                (j :: (rest ++ s.active.map Prod.fst)) :=
              ((List.Sublist.refl rest).append
                ((removeKey_sublist i s.active).map Prod.fst)).cons₂ j
            have h2 := hsub.nodup h1
            have hperm : (j :: (rest ++ (removeKey i s.active).map
                Prod.fst)).Perm
                ((rest ++ (removeKey i s.active).map Prod.fst) ++ [j]) :=
              (List.perm_append_singleton _ _).symm
            have h3 := hperm.nodup h2
            simpa [startInstance, List.map_append, List.append_assoc] using h3
          · rw [refill_cons_block hsp hic]
            refine ih ?_
            have hsub : (s.pending ++ (removeKey i s.active).map
                Prod.fst).Sublist (s.pending ++ s.active.map Prod.fst) :=
              (List.Sublist.refl _).append
                ((removeKey_sublist i s.active).map Prod.fst)
            exact hsub.nodup h

theorem refill_active_pending {services : List Service} {tr : List Nat}
    {s : SchedState} (hic : s.ic < 2)
    (hinv : s.active = [] → s.pending = [])
    (h : (refill services tr s).1.active = []) :
    (refill services tr s).1.pending = [] := by
  induction tr generalizing s with
  | nil => exact hinv h
  | cons i tl ih =>
      cases hsp : s.pending with
      | nil =>
          rw [refill_cons_nil hsp] at h ⊢
          exact ih hic (fun _ => hsp) h
      | cons j rest =>
          rw [refill_cons_start_fst hsp hic] at h
          rw [refill_cons_start hsp hic]
          refine ih hic ?_ h
          intro habs
          exact absurd habs (by simp [startInstance])

theorem loopTick_fst (services : List Service) (poll : Nat → Poll)
    (s : SchedState) :
    (loopTick services poll s).1 =
      { (refill services
          (pollPhase services poll s.now s.active s.resources).1
          { s with resources :=
              (pollPhase services poll s.now s.active s.resources).2.1 }).1
        with now := (refill services
          (pollPhase services poll s.now s.active s.resources).1
          { s with resources :=
              (pollPhase services poll s.now s.active
                s.resources).2.1 }).1.now + 1 } := rfl

theorem loopTick_snd (services : List Service) (poll : Nat → Poll)
    (s : SchedState) :
    (loopTick services poll s).2 =
      (pollPhase services poll s.now s.active s.resources).2.2 ++
        (refill services
          (pollPhase services poll s.now s.active s.resources).1
          { s with resources :=
              (pollPhase services poll s.now s.active s.resources).2.1 }).2 :=
  rfl

theorem loopTick_ic (services : List Service) (poll : Nat → Poll)
    (s : SchedState) : (loopTick services poll s).1.ic = s.ic := by
  rw [loopTick_fst]
  exact refill_ic _ _ _

theorem loopTick_pending_nil {services : List Service} {poll : Nat → Poll}
    {s : SchedState} (h : s.pending = []) :
    (loopTick services poll s).1.pending = [] := by
  show (refill services
      (pollPhase services poll s.now s.active s.resources).1
      { s with resources :=
          (pollPhase services poll s.now s.active s.resources).2.1 }).1.pending
      = []
  rw [refill_pending_nil (s := { s with resources :=
      (pollPhase services poll s.now s.active s.resources).2.1 }) h]
  exact h

theorem loopTick_trace (services : List Service) (poll : Nat → Poll)
    (s : SchedState) :
    (loopTick services poll s).1.startedLog ++
      (loopTick services poll s).1.pending =
      s.startedLog ++ s.pending := by
  rw [loopTick_fst]
  exact refill_trace _ _ _

/-- Permuting the admitted head of the queue to the end of the active keys
preserves distinctness. -/
theorem nodup_shift {i : Nat} {rest keys : List Nat}
    (h : ((i :: rest) ++ keys).Nodup) : (rest ++ (keys ++ [i])).Nodup := by
  have hperm : ((i :: rest) ++ keys).Perm (rest ++ (keys ++ [i])) := by
    rw [List.cons_append, ← List.append_assoc]
    exact (List.perm_append_singleton i (rest ++ keys)).symm
  exact hperm.nodup h

/-- The scheduling invariant of claim C2: every index is in at most one of
the pending queue and the active set (no duplicates), and the active set
respects the parallelism cap. -/
def Inv (P : Nat) (s : SchedState) : Prop :=
  (s.pending ++ s.active.map Prod.fst).Nodup ∧ s.active.length ≤ P

theorem loopTick_inv {services : List Service} {poll : Nat → Poll}
    {s : SchedState} {P : Nat} (h : Inv P s) :
    Inv P (loopTick services poll s).1 := by
  obtain ⟨hnd, hlen⟩ := h
  have hkeysnd : (s.active.map Prod.fst).Nodup :=
    (List.sublist_append_right _ _).nodup hnd
  have htr := pollPhase_toRemove_sublist services poll s.now s.active
    s.resources
  constructor
  · rw [loopTick_fst]
    exact refill_nodup hnd
  · rw [loopTick_fst]
    exact le_trans (refill_length (htr.nodup hkeysnd)
      (fun i hi => htr.subset hi)) hlen

theorem sigintHandler_first {s : SchedState} (h : s.ic = 0) :
    sigintHandler s = ({ s with ic := 1, pending := [] }, [], none) := by
  simp [sigintHandler, h]

theorem sigintHandler_second {s : SchedState} (h : s.ic = 1) :
    sigintHandler s =
      ({ s with
          ic := 2,
          active := [],
          resources := s.active.foldl
            (fun r p => r.filter (fun x => x ≠ Resource.driverCtr p.1))
            s.resources },
        s.active.map (fun p => Action.stopRemove p.1), none) := by
  simp [sigintHandler, h]

theorem sigintHandler_third {s : SchedState} (h : 2 ≤ s.ic) :
    sigintHandler s = ({ s with ic := s.ic + 1 }, [], some 1) := by
  have h1 : ¬(s.ic + 1 = 1) := by omega
  have h2 : ¬(s.ic + 1 = 2) := by omega
  simp [sigintHandler, h1, h2]

theorem sigintHandler_inv {s : SchedState} {P : Nat} (h : Inv P s) :
    Inv P (sigintHandler s).1 := by
  obtain ⟨hnd, hlen⟩ := h
  by_cases h0 : s.ic = 0
  · rw [sigintHandler_first h0]
    exact ⟨by simpa using (List.sublist_append_right _ _).nodup hnd,
      by exact hlen⟩
  · by_cases h1 : s.ic = 1
    · rw [sigintHandler_second h1]
      exact ⟨by simpa using (List.sublist_append_left _ _).nodup hnd,
        by simp⟩
    · have h2 : 2 ≤ s.ic := by omega
      rw [sigintHandler_third h2]
      exact ⟨hnd, hlen⟩

theorem step_inv {services : List Service} {s t : SchedState} {P : Nat}
    (h : Inv P s) (hst : Step services s t) : Inv P t := by
  cases hst with
  | tick poll hact => exact loopTick_inv h
  | signal hic => exact sigintHandler_inv h

theorem reach_inv {services : List Service} {P : Nat} {s t : SchedState}
    (h : Inv P s) (hr : Reach services s t) : Inv P t := by
  induction hr with
  | refl => exact h
  | tail _ hst ih => exact step_inv ih hst

theorem initAdmitAux_succ (services : List Service) (P fuel : Nat)
    (s : SchedState) :
    initAdmitAux services P (fuel + 1) s =
      match s.pending with
      | [] => s
      | i :: rest =>
          if s.active.length < P then
            initAdmitAux services P fuel
              (startInstance services i { s with pending := rest })
          else s := rfl

theorem initAdmitAux_nil {services : List Service} {P fuel : Nat}
    {s : SchedState} (h : s.pending = []) :
    initAdmitAux services P (fuel + 1) s = s := by
  rw [initAdmitAux_succ, h]

theorem initAdmitAux_go {services : List Service} {P fuel : Nat}
    {s : SchedState} {i : Nat} {rest : List Nat} (h : s.pending = i :: rest)
    (hlen : s.active.length < P) :
    initAdmitAux services P (fuel + 1) s =
      initAdmitAux services P fuel
        (startInstance services i { s with pending := rest }) := by
  rw [initAdmitAux_succ, h]
  exact if_pos hlen

theorem initAdmitAux_stop {services : List Service} {P fuel : Nat}
    {s : SchedState} {i : Nat} {rest : List Nat} (h : s.pending = i :: rest)
    (hlen : ¬s.active.length < P) :
    initAdmitAux services P (fuel + 1) s = s := by
  rw [initAdmitAux_succ, h]
  exact if_neg hlen

theorem initAdmitAux_inv {services : List Service} {P fuel : Nat}
    {s : SchedState} (h : Inv P s) :
    Inv P (initAdmitAux services P fuel s) := by
  induction fuel generalizing s with
  | zero => exact h
  | succ fuel ih =>
      cases hsp : s.pending with
      | nil =>
          rw [initAdmitAux_nil hsp]
          exact h
      | cons i rest =>
          by_cases hcap : s.active.length < P
          · rw [initAdmitAux_go hsp hcap]
            obtain ⟨hnd, hlen⟩ := h
            rw [hsp] at hnd
            refine ih ⟨?_, ?_⟩
            · have hsh := nodup_shift hnd
              simpa [startInstance, List.map_append] using hsh
            · simp only [startInstance]
              simp only [List.length_append, List.length_singleton]
              omega
          · rw [initAdmitAux_stop hsp hcap]
            exact h

theorem initAdmitAux_ic (services : List Service) (P fuel : Nat)
    (s : SchedState) : (initAdmitAux services P fuel s).ic = s.ic := by
  induction fuel generalizing s with
  | zero => rfl
  | succ fuel ih =>
      cases hsp : s.pending with
      | nil => rw [initAdmitAux_nil hsp]
      | cons i rest =>
          by_cases hlen : s.active.length < P
          · rw [initAdmitAux_go hsp hlen]
            exact ih _
          · rw [initAdmitAux_stop hsp hlen]

theorem initAdmitAux_trace (services : List Service) (P fuel : Nat)
    (s : SchedState) :
    (initAdmitAux services P fuel s).startedLog ++
      (initAdmitAux services P fuel s).pending =
      s.startedLog ++ s.pending := by
  induction fuel generalizing s with
  | zero => rfl
  | succ fuel ih =>
      cases hsp : s.pending with
      | nil =>
          rw [initAdmitAux_nil hsp, hsp]
      | cons i rest =>
          by_cases hlen : s.active.length < P
          · rw [initAdmitAux_go hsp hlen, ih _]
            simp [startInstance, hsp]
          · rw [initAdmitAux_stop hsp hlen, hsp]

theorem initAdmitAux_active_ne {services : List Service} {P fuel : Nat}
    {s : SchedState} (h : s.active ≠ []) :
    (initAdmitAux services P fuel s).active ≠ [] := by
  induction fuel generalizing s with
  | zero => exact h
  | succ fuel ih =>
      cases hsp : s.pending with
      | nil =>
          rw [initAdmitAux_nil hsp]
          exact h
      | cons i rest =>
          by_cases hlen : s.active.length < P
          · rw [initAdmitAux_go hsp hlen]
            exact ih (by simp [startInstance])
          · rw [initAdmitAux_stop hsp hlen]
            exact h

/-- The loop-only run invariant behind claim C9: the launch trace followed by
the still-pending queue is exactly `1..N` in order, no signal has arrived,
and the loop cannot have drained the active set while indices remain
pending. -/
def RunInv (N : Nat) (s : SchedState) : Prop :=
  s.startedLog ++ s.pending = List.range' 1 N ∧ s.ic = 0 ∧
    (s.active = [] → s.pending = [])

theorem tickStep_runInv {services : List Service} {N : Nat}
    {s t : SchedState} (h : RunInv N s) (hst : TickStep services s t) :
    RunInv N t := by
  obtain ⟨htr, hic, hap⟩ := h
  cases hst with
  | tick poll hact =>
      refine ⟨?_, ?_, ?_⟩
      · rw [loopTick_trace services poll s]
        exact htr
      · rw [loopTick_ic]
        exact hic
      · intro hA
        have hA2 : (refill services
            (pollPhase services poll s.now s.active s.resources).1
            { s with resources :=
              (pollPhase services poll s.now s.active
                s.resources).2.1 }).1.active = [] := hA
        show (refill services
            (pollPhase services poll s.now s.active s.resources).1
            { s with resources :=
              (pollPhase services poll s.now s.active
                s.resources).2.1 }).1.pending = []
        exact refill_active_pending (by show s.ic < 2; omega)
          (fun habs => absurd habs hact) hA2

theorem tickReach_runInv {services : List Service} {N : Nat}
    {s t : SchedState} (h : RunInv N s) (hr : TickReach services s t) :
    RunInv N t := by
  induction hr with
  | refl => exact h
  | tail _ hst ih => exact tickStep_runInv ih hst

theorem initAdmit_active_ne {services : List Service} {N P : Nat}
    (hP : 1 ≤ P) (hN : 1 ≤ N) :
    (initAdmit services P (initState N)).active ≠ [] := by
  obtain ⟨m, rfl⟩ : ∃ m, N = m + 1 := ⟨N - 1, by omega⟩
  unfold initAdmit
  have hfuel : (initState (m + 1)).pending.length = m + 1 := by
    simp [initState]
  rw [hfuel]
  have hp1 : (initState (m + 1)).pending = 1 :: List.range' 2 m := by
    simp [initState, List.range']
  have hl1 : (initState (m + 1)).active.length < P := by
    simp [initState]
    omega
  rw [initAdmitAux_go hp1 hl1]
  exact initAdmitAux_active_ne (by simp [startInstance])

theorem initAdmit_runInv {services : List Service} {N P : Nat}
    (hP : 1 ≤ P) (hN : 1 ≤ N) :
    RunInv N (initAdmit services P (initState N)) := by
  refine ⟨?_, ?_, ?_⟩
  · have htr := initAdmitAux_trace services P
      (initState N).pending.length (initState N)
    simpa [initAdmit, initState] using htr
  · exact initAdmitAux_ic services P _ _
  · intro hA
    exact absurd hA (initAdmit_active_ne hP hN)

/-! ## Docker-model lemmas (claim C10) -/

theorem find?_append_none {α : Type} {p : α → Bool} {l1 : List α}
    (l2 : List α) (h : l1.find? p = none) :
    (l1 ++ l2).find? p = l2.find? p := by
  induction l1 with
  | nil => rfl
  | cons a tl ih =>
      rw [List.cons_append]
      simp only [List.find?] at h ⊢
      cases hpa : p a
      · simp only [hpa] at h ⊢
        exact ih h
      · simp only [hpa] at h
        cases h

theorem find?_append_some {α : Type} {p : α → Bool} {l1 : List α} {a : α}
    (l2 : List α) (h : l1.find? p = some a) :
    (l1 ++ l2).find? p = some a := by
  induction l1 with
  | nil => cases h
  | cons x tl ih =>
      rw [List.cons_append]
      simp only [List.find?] at h ⊢
      cases hpx : p x
      · simp only [hpx] at h ⊢
        exact ih h
      · simp only [hpx] at h ⊢
        exact h

theorem ensure_network_idem (d : Docker) (name : String) :
    ensure_network (ensure_network d name).2 name =
      ((ensure_network d name).1, (ensure_network d name).2) := by
  unfold ensure_network
  cases hfind : d.nets.find? (fun n => n.name = name) with
  | some net => simp [hfind]
  | none =>
      simp only [hfind]
      have h2 : ((d.nets ++ [⟨name, d.nextId⟩] : List NetRec).find?
          (fun n => n.name = name)) = some ⟨name, d.nextId⟩ := by
        rw [find?_append_none _ hfind]
        simp [List.find?]
      simp [h2]

theorem ensure_network_names_nodup {d : Docker} {name : String}
    (h : (d.nets.map NetRec.name).Nodup) :
    ((ensure_network d name).2.nets.map NetRec.name).Nodup := by
  unfold ensure_network
  cases hfind : d.nets.find? (fun n => n.name = name) with
  | some net => simpa [hfind] using h
  | none =>
      simp only [hfind]
      have hnot : ∀ n ∈ d.nets, n.name ≠ name := by
        intro n hn
        have h3 := List.find?_eq_none.mp hfind n hn
        exact fun heq => h3 (by simp [heq])
      show (((d.nets ++ ([⟨name, d.nextId⟩] : List NetRec)).map
        NetRec.name)).Nodup
      rw [List.map_append, List.nodup_append]
      refine ⟨h, List.nodup_singleton _, ?_⟩
      intro a ha hb
      simp only [List.map_cons, List.map_nil, List.mem_singleton] at hb
      subst hb
      obtain ⟨n, hn, hname⟩ := List.mem_map.mp ha
      exact hnot n hn hname

theorem filter_name_absent {l : List CtrRec} {name : String} :
    ((l.filter (fun c => c.name ≠ name)).filter
      (fun c => c.name = name)) = [] := by
  induction l with
  | nil => rfl
  | cons c tl ih =>
      by_cases h : c.name = name <;> simp [List.filter_cons, h, ih]

theorem filter_name_idem {l : List CtrRec} {name : String} :
    ((l.filter (fun c => c.name ≠ name)).filter
      (fun c => c.name ≠ name)) = l.filter (fun c => c.name ≠ name) := by
  induction l with
  | nil => rfl
  | cons c tl ih =>
      by_cases h : c.name = name <;> simp [List.filter_cons, h, ih]

theorem ensure_container_ctrs (d : Docker) (name : String)
    (cfg : ContainerCfg) :
    (ensure_container d name cfg).2.ctrs =
      d.ctrs.filter (fun c => c.name ≠ name) ++ [⟨name, d.nextId, cfg⟩] :=
  rfl

theorem ensure_container_twice_ctrs (d : Docker) (name : String)
    (cfg : ContainerCfg) :
    (ensure_container (ensure_container d name cfg).2 name cfg).2.ctrs =
      d.ctrs.filter (fun c => c.name ≠ name) ++
        [⟨name, (ensure_container d name cfg).2.nextId, cfg⟩] := by
  rw [ensure_container_ctrs, ensure_container_ctrs, List.filter_append,
    filter_name_idem]
  simp [List.filter_cons]

/-- C10: the `ensure` provisioning operations are idempotent in the sense
the spec states.  Calling `ensure_network` twice in a row with the same name
returns the very same network record (same engine identity) and leaves the
engine state unchanged, and network names stay distinct.  Calling
`ensure_container` twice in a row leaves the set of live containers
observationally identical (same names and launch configurations — the
destructive replacement refreshes only the engine-side identity), and
exactly one live container with the given name remains. -/
theorem C10_ensure_idempotent (d : Docker) (name : String)
    (cfg : ContainerCfg) (hnets : (d.nets.map NetRec.name).Nodup) :
    (ensure_network (ensure_network d name).2 name =
      ((ensure_network d name).1, (ensure_network d name).2)) ∧
    ((ensure_network d name).2.nets.map NetRec.name).Nodup ∧
    ((ensure_container (ensure_container d name cfg).2 name cfg).2.ctrs.map
        ctrView =
      (ensure_container d name cfg).2.ctrs.map ctrView) ∧
    (((ensure_container (ensure_container d name cfg).2 name
        cfg).2.ctrs.filter (fun c => c.name = name)).map ctrView =
      [(name, cfg)]) := by
  refine ⟨ensure_network_idem d name, ensure_network_names_nodup hnets,
    ?_, ?_⟩
  · rw [ensure_container_twice_ctrs, ensure_container_ctrs]
    simp [ctrView, List.map_append]
  · rw [ensure_container_twice_ctrs, List.filter_append, filter_name_absent]
    simp [List.filter_cons, ctrView]

/-- Witness for C10 at a concrete engine state: the empty engine, the
coordinator-network name, and a one-field container configuration. -/
theorem C10_ensure_idempotent_witness :
    ((Docker.mk [] [] 0).nets.map NetRec.name).Nodup ∧
    (ensure_network (ensure_network (Docker.mk [] [] 0)
        "bench_coord_net").2 "bench_coord_net" =
      ((ensure_network (Docker.mk [] [] 0) "bench_coord_net").1,
        (ensure_network (Docker.mk [] [] 0) "bench_coord_net").2)) ∧
    ((ensure_container (ensure_container (Docker.mk [] [] 0)
          "bench_coordination" (ContainerCfg.mk "img" none [] [] [] [])).2
        "bench_coordination"
        (ContainerCfg.mk "img" none [] [] [] [])).2.ctrs.filter
          (fun c => c.name = "bench_coordination")).map ctrView =
      [("bench_coordination", ContainerCfg.mk "img" none [] [] [] [])] := by
  refine ⟨by simp, ?_, ?_⟩
  · exact (C10_ensure_idempotent (Docker.mk [] [] 0) "bench_coord_net"
      (ContainerCfg.mk "img" none [] [] [] []) (by simp)).1
  · exact (C10_ensure_idempotent (Docker.mk [] [] 0) "bench_coordination"
      (ContainerCfg.mk "img" none [] [] [] []) (by simp)).2.2.2

/-! ## Filesystem lemmas (claim C8) -/

theorem archivePath_ne_logPath (experiment : String) (i m : Nat) :
    archivePath experiment i m ≠ logPath experiment i := by
  intro h
  have hl := congrArg String.length h
  simp only [archivePath, logPath, String.length_append,
    show ("_" : String).length = 1 from rfl] at hl
  omega

theorem eq_of_nodup_paths {l : List FileRec}
    (h : (l.map FileRec.path).Nodup) {a b : FileRec} (ha : a ∈ l)
    (hb : b ∈ l) (hp : a.path = b.path) : a = b := by
  induction l with
  | nil => cases ha
  | cons x tl ih =>
      simp only [List.map_cons, List.nodup_cons] at h
      rcases List.mem_cons.mp ha with rfl | ha2
      · rcases List.mem_cons.mp hb with rfl | hb2
        · rfl
        · exfalso
          apply h.1
          rw [hp]
          exact List.mem_map_of_mem _ hb2
      · rcases List.mem_cons.mp hb with rfl | hb2
        · exfalso
          apply h.1
          rw [← hp]
          exact List.mem_map_of_mem _ ha2
        · exact ih h.2 ha2 hb2

/-- C8, amended: starting instance `i` when its canonical log file exists
renames that file to the archive path derived from its mtime (content and
mtime intact) and creates a fresh empty file at the canonical path; and —
provided no file already occupies that archive path — the content of every
pre-existing file is still present afterwards.  (Without that proviso the
POSIX rename silently replaces the occupant; see the counterexample.) -/
theorem C8_log_rotation (experiment : String) (i now : Nat) (fs : FS)
    (f : FileRec) (hnd : (fs.files.map FileRec.path).Nodup)
    (hf : fs.lookup (logPath experiment i) = some f)
    (harch : fs.lookup (archivePath experiment i f.mtime) = none) :
    (logSetup experiment i now fs).lookup (logPath experiment i) =
        some ⟨logPath experiment i, [], now⟩ ∧
    (logSetup experiment i now fs).lookup
        (archivePath experiment i f.mtime) =
      some ⟨archivePath experiment i f.mtime, f.content, f.mtime⟩ ∧
    ∀ g ∈ fs.files, ∃ g2 ∈ (logSetup experiment i now fs).files,
      g2.content = g.content := by
  have hne := archivePath_ne_logPath experiment i f.mtime
  have hfmem : f ∈ fs.files := List.mem_of_find?_eq_some hf
  have hfpath : f.path = logPath experiment i := by
    have := List.find?_some hf
    simpa using this
  have hstep : logSetup experiment i now fs =
      (fs.rename (logPath experiment i)
        (archivePath experiment i f.mtime)).createEmpty
        (logPath experiment i) now := by
    simp only [logSetup, hf]
  have hren : fs.rename (logPath experiment i)
      (archivePath experiment i f.mtime) =
      ⟨fs.files.filter (fun g => ¬(g.path = logPath experiment i ∨
          g.path = archivePath experiment i f.mtime)) ++
        [⟨archivePath experiment i f.mtime, f.content, f.mtime⟩]⟩ := by
    simp only [FS.rename, hf]
  have hfiles : (logSetup experiment i now fs).files =
      (fs.files.filter (fun g => ¬(g.path = logPath experiment i ∨
          g.path = archivePath experiment i f.mtime)) ++
        [⟨archivePath experiment i f.mtime, f.content, f.mtime⟩]) ++
        [⟨logPath experiment i, [], now⟩] := by
    have hA : (fs.files.filter (fun g => ¬(g.path = logPath experiment i ∨
        g.path = archivePath experiment i f.mtime))).filter
          (fun g => g.path ≠ logPath experiment i) =
        fs.files.filter (fun g => ¬(g.path = logPath experiment i ∨
          g.path = archivePath experiment i f.mtime)) := by
      apply List.filter_eq_self.mpr
      intro g hg
      have h2 := (List.mem_filter.mp hg).2
      simp only [decide_eq_true_eq] at h2 ⊢
      exact fun hh => h2 (Or.inl hh)
    have hB : ([⟨archivePath experiment i f.mtime, f.content, f.mtime⟩] :
        List FileRec).filter (fun g => g.path ≠ logPath experiment i) =
        [⟨archivePath experiment i f.mtime, f.content, f.mtime⟩] := by
      simp [List.filter_cons, hne]
    rw [hstep, hren]
    simp only [FS.createEmpty]
    rw [List.filter_append, hA, hB]
  refine ⟨?_, ?_, ?_⟩
  · show ((logSetup experiment i now fs).files.find?
      (fun g => g.path = logPath experiment i)) = _
    rw [hfiles]
    rw [find?_append_none]
    · rw [List.find?_cons_of_pos _ (by simp)]
    · rw [List.find?_eq_none]
      intro g hg
      rcases List.mem_append.mp hg with hg | hg
      · have h2 := (List.mem_filter.mp hg).2
        simp only [decide_eq_true_eq] at h2 ⊢
        exact fun hh => h2 (Or.inl hh)
      · simp only [List.mem_singleton] at hg
        subst hg
        simp only [decide_eq_true_eq]
        exact hne
  · show ((logSetup experiment i now fs).files.find?
        (fun g => g.path = archivePath experiment i f.mtime)) =
      some ⟨archivePath experiment i f.mtime, f.content, f.mtime⟩
    rw [hfiles]
    have hnoneA : (fs.files.filter
        (fun g => ¬(g.path = logPath experiment i ∨
          g.path = archivePath experiment i f.mtime))).find?
        (fun g => g.path = archivePath experiment i f.mtime) = none := by
      rw [List.find?_eq_none]
      intro g hg
      have h2 := (List.mem_filter.mp hg).2
      simp only [decide_eq_true_eq] at h2 ⊢
      exact fun hh => h2 (Or.inr hh)
    have hsomeB : ((fs.files.filter
        (fun g => ¬(g.path = logPath experiment i ∨
          g.path = archivePath experiment i f.mtime)) ++
        ([⟨archivePath experiment i f.mtime, f.content, f.mtime⟩] :
          List FileRec)).find?
        (fun g => g.path = archivePath experiment i f.mtime)) =
        some ⟨archivePath experiment i f.mtime, f.content, f.mtime⟩ := by
      rw [find?_append_none _ hnoneA]
      rw [List.find?_cons_of_pos _ (by simp)]
    exact find?_append_some _ hsomeB
  · intro g hg
    rw [hfiles]
    by_cases hgl : g.path = logPath experiment i
    · have hgf : g = f := eq_of_nodup_paths hnd hg hfmem
        (by rw [hgl, hfpath])
      subst hgf
      refine ⟨⟨archivePath experiment i g.mtime, g.content, g.mtime⟩,
        ?_, rfl⟩
      exact List.mem_append_left _ (List.mem_append_right _
        (List.mem_singleton.mpr rfl))
    · by_cases hga : g.path = archivePath experiment i f.mtime
      · exfalso
        have h3 := List.find?_eq_none.mp harch g hg
        exact h3 (by simpa using hga)
      · refine ⟨g, ?_, rfl⟩
        refine List.mem_append_left _ (List.mem_append_left _ ?_)
        refine List.mem_filter.mpr ⟨hg, ?_⟩
        simp only [decide_eq_true_eq]
        exact fun hh => hh.elim hgl hga

/-- Witness for C8 at a concrete filesystem: one old log file for instance 1
of experiment `exp`, rotated at time 200. -/
theorem C8_log_rotation_witness :
    ((FS.mk [⟨logPath "exp" 1, ["X"], 100⟩]).lookup (logPath "exp" 1) =
      some ⟨logPath "exp" 1, ["X"], 100⟩) ∧
    ((logSetup "exp" 1 200 (FS.mk [⟨logPath "exp" 1, ["X"], 100⟩])).lookup
        (logPath "exp" 1) = some ⟨logPath "exp" 1, [], 200⟩) ∧
    ((logSetup "exp" 1 200 (FS.mk [⟨logPath "exp" 1, ["X"], 100⟩])).lookup
        (archivePath "exp" 1 100) =
      some ⟨archivePath "exp" 1 100, ["X"], 100⟩) := by
  refine ⟨by decide, ?_, ?_⟩
  · exact (C8_log_rotation "exp" 1 200 (FS.mk [⟨logPath "exp" 1, ["X"], 100⟩])
      ⟨logPath "exp" 1, ["X"], 100⟩ (by decide) (by decide) (by decide)).1
  · exact (C8_log_rotation "exp" 1 200 (FS.mk [⟨logPath "exp" 1, ["X"], 100⟩])
      ⟨logPath "exp" 1, ["X"], 100⟩ (by decide) (by decide) (by decide)).2.1

/-- Counterexample to C8 as stated: log content can be lost.  Start from a
filesystem holding one old log file for instance 1 with content `["B"]` and
mtime 100 (second conjunct).  Rotate it (a start of instance 1 at second
100), let the log-follow thread write line `"A"` during the same second, and
rotate again (a later start of instance 1, at second 200): both rotations
archive to the same timestamped path, the POSIX rename replaces the first
archive, and content `["B"]` no longer exists anywhere on the
filesystem (first conjunct). -/
theorem C8_content_loss :
    ((logSetup "exp" 1 200 ((logSetup "exp" 1 100
        (FS.mk [⟨".log/exp_eval_1.log", ["B"], 100⟩])).appendLine
        ".log/exp_eval_1.log" "A" 100)).files.all
      (fun g => g.content ≠ ["B"])) = true ∧
    (FS.mk [⟨".log/exp_eval_1.log", ["B"], 100⟩]).lookup
        (logPath "exp" 1) =
      some ⟨".log/exp_eval_1.log", ["B"], 100⟩ := by
  constructor
  · decide
  · decide

/-! ## Claim C1: provisioning failure -/

theorem startInstanceE_fail {netFail svcFail drvFail : Nat → Bool}
    {services : List Service} {i : Nat} {s : SchedState}
    (hfail : (startInstanceE netFail svcFail drvFail services i s).2 ≠
      none) :
    (startInstanceE netFail svcFail drvFail services i s).2 = some 1 ∧
    (startInstanceE netFail svcFail drvFail services i s).1.active =
      s.active ∧
    (startInstanceE netFail svcFail drvFail services i s).1.startedLog =
      s.startedLog := by
  unfold startInstanceE at hfail ⊢
  by_cases h1 : netFail i
  · simp [h1]
  · by_cases h2 : svcFail i
    · simp [h1, h2]
    · by_cases h3 : drvFail i
      · simp [h1, h2, h3]
      · simp [h1, h2, h3] at hfail

theorem initAdmitEAux_succ (netFail svcFail drvFail : Nat → Bool)
    (services : List Service) (P fuel : Nat) (s : SchedState) :
    initAdmitEAux netFail svcFail drvFail services P (fuel + 1) s =
      match s.pending with
      | [] => (s, none)
      | i :: rest =>
          if s.active.length < P then
            match startInstanceE netFail svcFail drvFail services i
                { s with pending := rest } with
            | (s2, none) =>
                initAdmitEAux netFail svcFail drvFail services P fuel s2
            | (s2, some c) => (s2, some c)
          else (s, none) := rfl

theorem initAdmitEAux_exit {netFail svcFail drvFail : Nat → Bool}
    {services : List Service} {P fuel : Nat} {s : SchedState} {c : Nat}
    (h : (initAdmitEAux netFail svcFail drvFail services P fuel s).2 =
      some c) : c = 1 := by
  induction fuel generalizing s with
  | zero => cases h
  | succ fuel ih =>
      rw [initAdmitEAux_succ] at h
      cases hsp : s.pending with
      | nil =>
          rw [hsp] at h
          cases h
      | cons i rest =>
          rw [hsp] at h
          dsimp only at h
          by_cases hcap : s.active.length < P
          · rw [if_pos hcap] at h
            cases hse : startInstanceE netFail svcFail drvFail services i
                { s with pending := rest } with
            | mk s2 oc =>
                rw [hse] at h
                cases oc with
                | none => exact ih h
                | some c2 =>
                    simp only at h
                    have hne : (startInstanceE netFail svcFail drvFail
                        services i { s with pending := rest }).2 ≠ none := by
                      rw [hse]
                      simp
                    have h1 := (startInstanceE_fail hne).1
                    rw [hse] at h1
                    simp only at h1
                    cases h
                    cases h1
                    rfl
          · rw [if_neg hcap] at h
            cases h

/-- C1, amended: the claim fails on the code — a provisioning failure while
starting an instance is process-fatal, not instance-fatal.  `ensure_network`
and `ensure_container` call `sys.exit(1)` on any API error, and nothing in
`run_config` catches the resulting `SystemExit`.  So when any provisioning
step of instance `i` fails, the failing instance never enters the active set
and is not retried (that much of the claim holds), but the process exits
with status 1: pending instances are never started and active instances are
left running, unmonitored and without finalization. -/
theorem C1_provisioning_failure_exits (netFail svcFail drvFail : Nat → Bool)
    (services : List Service) (P i : Nat) (s : SchedState)
    (hfail : (startInstanceE netFail svcFail drvFail services i s).2 ≠
      none) :
    (startInstanceE netFail svcFail drvFail services i s).2 = some 1 ∧
    (startInstanceE netFail svcFail drvFail services i s).1.active =
      s.active ∧
    (startInstanceE netFail svcFail drvFail services i s).1.startedLog =
      s.startedLog ∧
    ∀ c, (initAdmitE netFail svcFail drvFail services P s).2 = some c →
      c = 1 := by
  obtain ⟨h1, h2, h3⟩ := startInstanceE_fail hfail
  exact ⟨h1, h2, h3, fun c hc => initAdmitEAux_exit hc⟩

/-- Witness for the amended C1: a concrete 5-instance admission in which the
driver container of instance 3 fails to start. -/
theorem C1_provisioning_failure_exits_witness :
    ((startInstanceE (fun _ => false) (fun _ => false) (fun i => i == 3) []
        3 (initState 5)).2 ≠ none) ∧
    (startInstanceE (fun _ => false) (fun _ => false) (fun i => i == 3) []
        3 (initState 5)).2 = some 1 ∧
    (startInstanceE (fun _ => false) (fun _ => false) (fun i => i == 3) []
        3 (initState 5)).1.active = (initState 5).active := by
  refine ⟨by decide, ?_, ?_⟩
  · exact (C1_provisioning_failure_exits (fun _ => false) (fun _ => false)
      (fun i => i == 3) [] 5 3 (initState 5) (by decide)).1
  · exact (C1_provisioning_failure_exits (fun _ => false) (fun _ => false)
      (fun i => i == 3) [] 5 3 (initState 5) (by decide)).2.1

/-- Counterexample to C1 as stated, at the spec's own scenario: a 5-instance
batch (with `parallel_evals` defaulting to 5) whose instance 3 fails to
provision (e.g. unknown image, an `ImageNotFound` ⊆ `APIError` from
`containers.run`).  The process exits with status 1 during the admission
phase: instances 1 and 2 were launched but are never finalized, instance 3
never enters the active set, and instances 4 and 5 are never started — the
batch does not "still complete instances 1,2,4,5", and the process does
exit. -/
theorem C1_counterexample :
    (initAdmitE (fun _ => false) (fun _ => false) (fun i => i == 3) [] 5
        (initState 5)).2 = some 1 ∧
    (initAdmitE (fun _ => false) (fun _ => false) (fun i => i == 3) [] 5
        (initState 5)).1.startedLog = [1, 2] ∧
    (initAdmitE (fun _ => false) (fun _ => false) (fun i => i == 3) [] 5
        (initState 5)).1.active.map Prod.fst = [1, 2] ∧
    (initAdmitE (fun _ => false) (fun _ => false) (fun i => i == 3) [] 5
        (initState 5)).1.pending = [4, 5] := by
  refine ⟨?_, ?_, ?_, ?_⟩ <;> decide

/-! ## Claim C2: parallelism cap -/

/-- C2: for every configuration — any `eval_count` N and `parallel_evals` P
(the default `P = N` is one choice of P) — the active set holds at most P
entries at every observation point of the main loop: at the state the
admission phase produces, and at every state reachable from it by loop
iterations and signal deliveries. -/
theorem C2_parallel_cap (services : List Service) (N P : Nat)
    (s : SchedState)
    (hreach : Reach services (initAdmit services P (initState N)) s) :
    s.active.length ≤ P := by
  have h0 : Inv P (initState N) := by
    constructor
    · show ((List.range' 1 N ++ ([] : List (Nat × Nat)).map
        Prod.fst)).Nodup
      simpa using List.nodup_range' 1 N
    · show ([] : List (Nat × Nat)).length ≤ P
      simp
  exact (reach_inv (initAdmitAux_inv h0) hreach).2

/-- Witness for C2: a 3-instance run with cap 2, observed right after the
admission phase. -/
theorem C2_parallel_cap_witness :
    Reach [] (initAdmit [] 2 (initState 3)) (initAdmit [] 2 (initState 3)) ∧
    (initAdmit [] 2 (initState 3)).active.length ≤ 2 :=
  ⟨Relation.ReflTransGen.refl,
    C2_parallel_cap [] 3 2 _ Relation.ReflTransGen.refl⟩

/-! ## Claims C3, C5, C6: finalization and teardown -/

/-- Shared finalization fact: in any tick, an active instance whose driver
is observed as stopped is finalized — its duration-bearing finalize event is
emitted, it leaves the active set (and is not readmitted, as its index is
not pending), and every one of its owned resources is removed. -/
theorem loopTick_finalize {services : List Service} {poll : Nat → Poll}
    {s : SchedState} {i st : Nat} (hmem : (i, st) ∈ s.active)
    (hstop : poll i = Poll.stopped) (hpend : i ∉ s.pending) :
    Action.finalize i (s.now - st) ∈ (loopTick services poll s).2 ∧
    i ∉ (loopTick services poll s).1.active.map Prod.fst ∧
    ∀ r ∈ cleanupTargets services i,
      r ∉ (loopTick services poll s).1.resources := by
  refine ⟨?_, ?_, ?_⟩
  · rw [loopTick_snd]
    exact List.mem_append_left _ (pollPhase_finalize_mem hmem hstop)
  · rw [loopTick_fst]
    intro hcon
    rcases refill_keys_subset hcon with ⟨hk, hnotr⟩ | hp
    · exact hnotr (pollPhase_toRemove_mem hmem (by simp [hstop]))
    · exact hpend hp
  · intro r hr hcon
    rw [loopTick_fst] at hcon
    rcases refill_res_inv hcon with hcon | ⟨j, hj, hrj⟩
    · exact pollPhase_cleanup hmem hstop r hr hcon
    · have hij : i ≠ j := fun hij => hpend (hij ▸ hj)
      exact cleanupTargets_disjoint hij hr hrj

/-- Shared reload-failure fact: the error path of the tick only removes the
instance from the active set — no finalize event for it is emitted and none
of its resources are touched. -/
theorem loopTick_pollErr {services : List Service} {poll : Nat → Poll}
    {s : SchedState} {i st : Nat} (hmem : (i, st) ∈ s.active)
    (herr : poll i = Poll.err) (hpend : i ∉ s.pending) :
    i ∉ (loopTick services poll s).1.active.map Prod.fst ∧
    Action.removeErr i ∈ (loopTick services poll s).2 ∧
    (∀ d, Action.finalize i d ∉ (loopTick services poll s).2) ∧
    ∀ r ∈ s.resources, r ∈ cleanupTargets services i →
      r ∈ (loopTick services poll s).1.resources := by
  refine ⟨?_, ?_, ?_, ?_⟩
  · rw [loopTick_fst]
    intro hcon
    rcases refill_keys_subset hcon with ⟨hk, hnotr⟩ | hp
    · exact hnotr (pollPhase_toRemove_mem hmem (by simp [herr]))
    · exact hpend hp
  · rw [loopTick_snd]
    exact List.mem_append_left _ (pollPhase_removeErr_mem hmem herr)
  · intro d hcon
    rw [loopTick_snd] at hcon
    rcases List.mem_append.mp hcon with hcon | hcon
    · obtain ⟨st2, hst2, hps, hd⟩ := pollPhase_finalize_inv hcon
      rw [herr] at hps
      cases hps
    · obtain ⟨j, hj, hlaunch⟩ := refill_acts hcon
      cases hlaunch
  · intro r hr htgt
    rw [loopTick_fst]
    refine refill_res_keep (pollPhase_res_keep hr ?_)
    intro j st2 hjmem hjstop hrj
    by_cases hij : j = i
    · subst hij
      rw [herr] at hjstop
      cases hjstop
    · exact cleanupTargets_ne (fun hh => hij hh.symm) htgt hrj

/-- C3, amended: the claim fails on the code — a failed per-tick status
refresh of instance `i`'s driver is *not* treated identically to a driver
that stopped.  Both paths remove `i` from the active set (freeing its slot),
but the refresh-failure path skips finalization: no wall-clock duration is
computed (no finalize event for `i` is emitted, only the reload-error
event), and none of `i`'s resources — service containers, driver container,
per-instance network — are torn down. -/
theorem C3_poll_failure (services : List Service) (poll : Nat → Poll)
    (s : SchedState) (i st : Nat) (hmem : (i, st) ∈ s.active)
    (herr : poll i = Poll.err) (hpend : i ∉ s.pending) :
    i ∉ (loopTick services poll s).1.active.map Prod.fst ∧
    Action.removeErr i ∈ (loopTick services poll s).2 ∧
    (∀ d, Action.finalize i d ∉ (loopTick services poll s).2) ∧
    ∀ r ∈ s.resources, r ∈ cleanupTargets services i →
      r ∈ (loopTick services poll s).1.resources :=
  loopTick_pollErr hmem herr hpend

/-- Witness for the amended C3 at the concrete mid-run state. -/
theorem C3_poll_failure_witness :
    ((1, 0) ∈ exampleActive.active) ∧
    Action.removeErr 1 ∈
      (loopTick dbService (fun _ => Poll.err) exampleActive).2 ∧
    Resource.driverCtr 1 ∈ (loopTick dbService (fun _ => Poll.err)
      exampleActive).1.resources := by
  refine ⟨by decide, ?_, ?_⟩
  · exact (C3_poll_failure dbService (fun _ => Poll.err) exampleActive 1 0
      (by decide) rfl (by decide)).2.1
  · exact (C3_poll_failure dbService (fun _ => Poll.err) exampleActive 1 0
      (by decide) rfl (by decide)).2.2.2 (Resource.driverCtr 1) (by decide)
      (by decide)

/-- Counterexample to C3 as stated: at the concrete mid-run state (instance
1 active with a service container, driver and network), a tick whose status
refresh fails produces only the reload-error event — no finalize event, so
no duration is computed — and instance 1's driver container, service
container and network all remain live, even though instance 1 has left the
active set. -/
theorem C3_counterexample :
    (loopTick dbService (fun _ => Poll.err) exampleActive).2 =
      [Action.removeErr 1] ∧
    (loopTick dbService (fun _ => Poll.err) exampleActive).1.active = [] ∧
    Resource.driverCtr 1 ∈
      (loopTick dbService (fun _ => Poll.err) exampleActive).1.resources ∧
    Resource.svcCtr 1 "db" 1 ∈
      (loopTick dbService (fun _ => Poll.err) exampleActive).1.resources ∧
    Resource.instNet 1 ∈
      (loopTick dbService (fun _ => Poll.err) exampleActive).1.resources := by
  refine ⟨?_, ?_, ?_, ?_, ?_⟩ <;> decide

/-! ## Claim C4: what the signal handler does -/

/-- C4, amended: the claim fails on the code — the signal handler does not
merely record cancellation intent.  It always bumps the interrupt counter,
but it also mutates scheduler state directly and performs container
teardown inline: the first signal clears the pending queue from the handler;
the second signal stops and removes every active instance's driver container
from the handler (the network-bound `ctr.stop()`/`ctr.remove()` calls are
issued in the handler itself, furnace.py lines 210-216) and clears the
active set; a third signal exits the process from the handler.  The main
loop's only cancellation-related act is to stop admitting new instances once
the recorded level reaches 2. -/
theorem C4_handler_effects (s : SchedState) :
    ((sigintHandler s).2.1 = if s.ic + 1 = 2 then
      s.active.map (fun p => Action.stopRemove p.1) else []) ∧
    ((sigintHandler s).1.ic = s.ic + 1) ∧
    (s.ic = 0 → (sigintHandler s).1 = { s with ic := 1, pending := [] }) ∧
    (s.ic = 1 → (sigintHandler s).1.active = []) ∧
    (2 ≤ s.ic → (sigintHandler s).2.2 = some 1) := by
  by_cases h0 : s.ic = 0
  · rw [sigintHandler_first h0]
    refine ⟨by simp [h0], by simp [h0], fun _ => rfl, ?_, ?_⟩
    · intro h1
      rw [h0] at h1
      cases h1
    · intro h2
      rw [h0] at h2
      cases h2
  · by_cases h1 : s.ic = 1
    · rw [sigintHandler_second h1]
      refine ⟨by simp [h1], by simp [h1], ?_, fun _ => rfl, ?_⟩
      · intro h0c
        exact absurd h0c h0
      · intro h2
        rw [h1] at h2
        omega
    · have h2 : 2 ≤ s.ic := by omega
      rw [sigintHandler_third h2]
      refine ⟨by simp; omega, by simp, ?_, ?_, fun _ => rfl⟩
      · intro h0c
        exact absurd h0c h0
      · intro h1c
        exact absurd h1c h1

/-- Witness for the amended C4 at the concrete mid-run states. -/
theorem C4_handler_effects_witness :
    (exampleActive.ic = 0 →
      (sigintHandler exampleActive).1 =
        { exampleActive with ic := 1, pending := [] }) ∧
    (sigintHandler exampleLevel1).2.1 =
      (if exampleLevel1.ic + 1 = 2 then
        exampleLevel1.active.map (fun p => Action.stopRemove p.1) else []) :=
  ⟨(C4_handler_effects exampleActive).2.2.1,
    (C4_handler_effects exampleLevel1).1⟩

/-- Counterexample to C4 as stated: at the concrete state after a first
signal (one active instance), delivering the second signal makes the handler
itself stop and remove the active driver container — the handler performs
network-bound cleanup inline (the stop/remove events are emitted by the
handler and the driver container disappears from the engine during the
handler), rather than only recording intent for the main loop. -/
theorem C4_counterexample :
    (sigintHandler exampleLevel1).2.1 = [Action.stopRemove 1] ∧
    Resource.driverCtr 1 ∈ exampleLevel1.resources ∧
    Resource.driverCtr 1 ∉ (sigintHandler exampleLevel1).1.resources := by
  refine ⟨?_, ?_, ?_⟩ <;> decide

/-! ## Claim C5: resource reclamation on Finished / Cancelled -/

theorem handlerPurge_not_mem {s : SchedState} {i st : Nat}
    (hmem : (i, st) ∈ s.active) :
    Resource.driverCtr i ∉ s.active.foldl
      (fun r p => r.filter (fun x => x ≠ Resource.driverCtr p.1))
      s.resources := by
  intro hcon
  have h2 := (mem_foldl_filter
    (fun p x => decide (x ≠ Resource.driverCtr p.1)) s.active s.resources
    (Resource.driverCtr i)).mp hcon
  have h3 := h2.2 (i, st) hmem
  simp at h3

/-- C5, amended: the claim fails on the code for the Cancelled side.  An
instance that reaches Finished (driver observed not running) is fully
reclaimed in that tick: its finalize event (with wall-clock duration) is
emitted and every owned resource — each service container, the driver
container, the per-instance network — is removed.  An instance cancelled by
the second signal, however, only has its driver container stopped and
removed (inline, in the handler) and leaves the active set; its service
containers and its per-instance network are not reclaimed. -/
theorem C5_resource_reclaim (services : List Service) (poll : Nat → Poll)
    (s : SchedState) (i st : Nat) (hmem : (i, st) ∈ s.active)
    (hstop : poll i = Poll.stopped) (hpend : i ∉ s.pending) :
    (Action.finalize i (s.now - st) ∈ (loopTick services poll s).2 ∧
      ∀ r ∈ cleanupTargets services i,
        r ∉ (loopTick services poll s).1.resources) ∧
    (s.ic = 1 → Action.stopRemove i ∈ (sigintHandler s).2.1 ∧
      Resource.driverCtr i ∉ (sigintHandler s).1.resources ∧
      (sigintHandler s).1.active = []) := by
  obtain ⟨hfin, hnk, hres⟩ := loopTick_finalize hmem hstop hpend
  refine ⟨⟨hfin, hres⟩, ?_⟩
  intro h1
  rw [sigintHandler_second h1]
  refine ⟨?_, ?_, rfl⟩
  · exact List.mem_map_of_mem _ hmem
  · exact handlerPurge_not_mem hmem

/-- Witness for the amended C5 at the concrete mid-run state: instance 1
finishes (driver observed stopped) and all of its resources are gone. -/
theorem C5_resource_reclaim_witness :
    ((1, 0) ∈ exampleActive.active) ∧
    Action.finalize 1 (exampleActive.now - 0) ∈
      (loopTick dbService (fun _ => Poll.stopped) exampleActive).2 ∧
    Resource.instNet 1 ∉ (loopTick dbService (fun _ => Poll.stopped)
      exampleActive).1.resources := by
  refine ⟨by decide, ?_, ?_⟩
  · exact (C5_resource_reclaim dbService (fun _ => Poll.stopped)
      exampleActive 1 0 (by decide) rfl (by decide)).1.1
  · exact (C5_resource_reclaim dbService (fun _ => Poll.stopped)
      exampleActive 1 0 (by decide) rfl (by decide)).1.2
      (Resource.instNet 1) (by decide)

/-- Counterexample to C5 as stated: at the concrete state after a first
signal, the second signal cancels active instance 1 — it leaves the active
set and its driver container is removed, but its service container and its
per-instance network are still live: resources are not reclaimed upon
reaching Cancelled. -/
theorem C5_counterexample :
    (sigintHandler exampleLevel1).1.active = [] ∧
    Resource.driverCtr 1 ∉ (sigintHandler exampleLevel1).1.resources ∧
    Resource.svcCtr 1 "db" 1 ∈ (sigintHandler exampleLevel1).1.resources ∧
    Resource.instNet 1 ∈ (sigintHandler exampleLevel1).1.resources := by
  refine ⟨?_, ?_, ?_, ?_⟩ <;> decide

/-! ## Claim C6: first cancellation signal -/

theorem sigintHandler_pending_nil {s : SchedState} (h : s.pending = []) :
    (sigintHandler s).1.pending = [] := by
  by_cases h0 : s.ic = 0
  · rw [sigintHandler_first h0]
  · by_cases h1 : s.ic = 1
    · rw [sigintHandler_second h1]
      exact h
    · rw [sigintHandler_third (by omega)]
      exact h

/-- C6: after the first cancellation signal the pending queue is empty and
stays empty along every subsequent loop-only execution (the scheduler never
adds an index back to it), the active set and the live resources are
untouched by the signal, and every already-active instance still completes
normally: when its driver is later observed stopped, its finalize event is
emitted, it leaves the active set, and its resources are reclaimed. -/
theorem C6_first_signal (services : List Service) (s : SchedState)
    (h0 : s.ic = 0) :
    (sigintHandler s).1.pending = [] ∧
    (sigintHandler s).1.active = s.active ∧
    (sigintHandler s).1.resources = s.resources ∧
    (∀ t, Reach services (sigintHandler s).1 t → t.pending = []) ∧
    (∀ poll i st, (i, st) ∈ (sigintHandler s).1.active →
      poll i = Poll.stopped →
      Action.finalize i ((sigintHandler s).1.now - st) ∈
          (loopTick services poll (sigintHandler s).1).2 ∧
        i ∉ (loopTick services poll
          (sigintHandler s).1).1.active.map Prod.fst ∧
        ∀ r ∈ cleanupTargets services i,
          r ∉ (loopTick services poll (sigintHandler s).1).1.resources) := by
  have hfst := sigintHandler_first h0
  refine ⟨by rw [hfst], by rw [hfst], by rw [hfst], ?_, ?_⟩
  · intro t hreach
    induction hreach with
    | refl => rw [hfst]
    | tail hr hstep ih =>
        cases hstep with
        | tick poll hact => exact loopTick_pending_nil ih
        | signal hic => exact sigintHandler_pending_nil ih
  · intro poll i st hmem hstop
    have hpend : i ∉ (sigintHandler s).1.pending := by
      rw [hfst]
      exact List.not_mem_nil i
    exact loopTick_finalize hmem hstop hpend

/-- Witness for C6 at the concrete mid-run state. -/
theorem C6_first_signal_witness :
    exampleActive.ic = 0 ∧
    (sigintHandler exampleActive).1.pending = [] ∧
    (sigintHandler exampleActive).1.active = exampleActive.active ∧
    (sigintHandler exampleActive).1.resources = exampleActive.resources := by
  refine ⟨by decide, ?_, ?_, ?_⟩
  · exact (C6_first_signal dbService exampleActive rfl).1
  · exact (C6_first_signal dbService exampleActive rfl).2.1
  · exact (C6_first_signal dbService exampleActive rfl).2.2.1

/-! ## Claim C7: second cancellation signal -/

/-- C7: the second cancellation signal empties the active set immediately
(hence within one loop iteration), stopping and removing every active
instance's driver container; and from interrupt level 2 on, no instance is
ever started again even if the pending queue were non-empty — a tick at
level ≥ 2 launches nothing and leaves the launch trace unchanged. -/
theorem C7_second_signal (services : List Service) (s : SchedState)
    (h1 : s.ic = 1) :
    (sigintHandler s).1.active = [] ∧
    (∀ i st, (i, st) ∈ s.active →
      Action.stopRemove i ∈ (sigintHandler s).2.1 ∧
      Resource.driverCtr i ∉ (sigintHandler s).1.resources) ∧
    (∀ t : SchedState, 2 ≤ t.ic → ∀ poll : Nat → Poll,
      (loopTick services poll t).1.startedLog = t.startedLog ∧
      ∀ a ∈ (loopTick services poll t).2, ∀ j, a ≠ Action.launch j) := by
  have hsnd := sigintHandler_second h1
  refine ⟨by rw [hsnd], ?_, ?_⟩
  · intro i st hmem
    rw [hsnd]
    exact ⟨List.mem_map_of_mem _ hmem, handlerPurge_not_mem hmem⟩
  · intro t h2 poll
    have hrefill := @refill_ic_ge2 services
      (pollPhase services poll t.now t.active t.resources).1
      { t with resources :=
        (pollPhase services poll t.now t.active t.resources).2.1 } h2
    constructor
    · rw [loopTick_fst, hrefill]
    · intro a ha j
      rw [loopTick_snd, hrefill] at ha
      rcases List.mem_append.mp ha with ha | ha
      · rcases pollPhase_acts_shape ha with ⟨i2, d, rfl⟩ | ⟨i2, rfl⟩ <;>
          intro hcon <;> cases hcon
      · simp at ha

/-- Witness for C7 at the concrete state after a first signal. -/
theorem C7_second_signal_witness :
    exampleLevel1.ic = 1 ∧
    (sigintHandler exampleLevel1).1.active = [] ∧
    Action.stopRemove 1 ∈ (sigintHandler exampleLevel1).2.1 := by
  refine ⟨by decide, ?_, ?_⟩
  · exact (C7_second_signal dbService exampleLevel1 rfl).1
  · exact ((C7_second_signal dbService exampleLevel1 rfl).2.1 1 0
      (by decide)).1

/-! ## Claim C9: every index started exactly once, in order -/

/-- C9: in a run with `1 ≤ P` and `1 ≤ N` in which no cancellation signal
arrives, if the main loop has drained the active set (which is how the loop
terminates, and what eventually happens when every started driver eventually
stops), then the launch trace is exactly `[1, 2, ..., N]`: all N instance
indices were started, each exactly once, admitted in ascending index
order. -/
theorem C9_all_started (services : List Service) (N P : Nat)
    (s : SchedState) (hP : 1 ≤ P) (hN : 1 ≤ N)
    (hreach : TickReach services (initAdmit services P (initState N)) s)
    (hdone : s.active = []) :
    s.startedLog = List.range' 1 N := by
  have hinv := tickReach_runInv (initAdmit_runInv hP hN) hreach
  have hp := hinv.2.2 hdone
  have htr := hinv.1
  rw [hp, List.append_nil] at htr
  exact htr

/-- Witness for C9: a 2-instance run with cap 1 in which each driver stops
by its next poll; after two ticks the loop is done and the launch trace is
`[1, 2]`. -/
theorem C9_all_started_witness :
    (loopTick [] (fun _ => Poll.stopped)
        (loopTick [] (fun _ => Poll.stopped)
          (initAdmit [] 1 (initState 2))).1).1.active = [] ∧
    (loopTick [] (fun _ => Poll.stopped)
        (loopTick [] (fun _ => Poll.stopped)
          (initAdmit [] 1 (initState 2))).1).1.startedLog =
      List.range' 1 2 := by
  constructor
  · decide
  · exact C9_all_started [] 2 1 _ (by decide) (by decide)
      (Relation.ReflTransGen.tail
        (Relation.ReflTransGen.single (TickStep.tick _ (by decide)))
        (TickStep.tick _ (by decide)))
      (by decide)

end Furnace